import Mathlib

/-!
Shallow embedding of the dependency-resolver program (src/Imposible2.cpp).

The program models a package dependency graph over `Package` values
(name/version pairs used as hash-map keys) and runs five analyses over it:
DFS cycle detection, Kahn topological sort (which mutates the stored
in-degree counters), version-conflict scanning, DOT visualization and
single-hop reverse-dependency impact analysis.

The C++ `unordered_map` / `unordered_set` containers are embedded as
association lists (`List (Package × β)`) and duplicate-free lists; the
unspecified hash iteration order of the containers becomes the list order,
over which the theorems quantify.  `std::map::at`, which throws
`std::out_of_range` on a missing key, is embedded as an `Option`-returning
lookup whose `none` is propagated as `DGError.notFound`; the recursive DFS
and the sorter's while-loop are given an explicit fuel argument whose
exhaustion is a separate error value, and fuel adequacy is proved for the
fuel the embedding actually passes.  C++ `int` counters are embedded as
`Int` (no overflow is reachable for the finite graphs involved).
-/

/-- Package identity: a name and a version string; `operator==` compares both
fields, and the hash is consistent with equality, so the embedding uses
structural equality. -/
structure Package where
  name : String
  version : String
deriving DecidableEq

/-- Lookup of the value stored under a key in an association list; models
`unordered_map::find` / `unordered_map::at` (the first entry with the key is
the stored one). -/
def alistFind {β : Type} : List (Package × β) → Package → Option β
  | [], _ => none
  | (k, v) :: rest, p => if k = p then some v else alistFind rest p

/-- Store a value under a key: overwrite the existing entry or append a new
one; models `unordered_map::operator[] =`. -/
def alistSet : List (Package × Int) → Package → Int → List (Package × Int)
  | [], p, v => [(p, v)]
  | (k, w) :: rest, p, v =>
    if k = p then (k, v) :: rest else (k, w) :: alistSet rest p v

/-- Increment the counter stored under a key, default-constructing it at 0
first when absent; models `inDegree[dependency]++`. -/
def alistBump : List (Package × Int) → Package → List (Package × Int)
  | [], p => [(p, 1)]
  | (k, w) :: rest, p =>
    if k = p then (k, w + 1) :: rest else (k, w) :: alistBump rest p

/-- Insertion into a deduplicating set of packages; models
`unordered_set::insert`. -/
def setAdd (s : List Package) (d : Package) : List Package :=
  if d ∈ s then s else s ++ [d]

/-- Adjacency update for `graph[pkg].insert(dependency)`: `operator[]`
default-constructs an empty set for a missing key, then the dependency is
inserted into that set. -/
def alistInsertDep : List (Package × List Package) → Package → Package →
    List (Package × List Package)
  | [], p, d => [(p, [d])]
  | (k, deps) :: rest, p, d =>
    if k = p then (k, setAdd deps d) :: rest
    else (k, deps) :: alistInsertDep rest p d

/-- The dependency graph state: the adjacency map `graph` (package to its
set of direct dependencies) and the in-degree counter map `inDegree`. -/
structure DependencyGraph where
  graph : List (Package × List Package)
  inDegree : List (Package × Int)
deriving DecidableEq

/-- The empty graph a caller starts from. -/
def freshGraph : DependencyGraph := ⟨[], []⟩

/-- Keys of the adjacency map (the registered-or-auto-created packages). -/
def keysOf (g : DependencyGraph) : List Package := g.graph.map Prod.fst

/-- DependencyGraph::addPackage: insert an empty dependency set when the
package is not yet a key, and unconditionally set its in-degree to 0. -/
def addPackage (g : DependencyGraph) (pkg : Package) : DependencyGraph :=
  { graph := if (alistFind g.graph pkg).isSome then g.graph
             else g.graph ++ [(pkg, [])]
    inDegree := alistSet g.inDegree pkg 0 }

/-- DependencyGraph::addDependency: `graph[pkg].insert(dependency)` and
`inDegree[dependency]++`. -/
def addDependency (g : DependencyGraph) (pkg dep : Package) : DependencyGraph :=
  { graph := alistInsertDep g.graph pkg dep
    inDegree := alistBump g.inDegree dep }

/-- DependencyGraph::getDependencies: `graph.at(pkg)`; `none` models the
`std::out_of_range` exception on a missing key. -/
def getDependencies (g : DependencyGraph) (pkg : Package) : Option (List Package) :=
  alistFind g.graph pkg

/-- DependencyGraph::getInDegree: `inDegree.at(pkg)`. -/
def getInDegree (g : DependencyGraph) (pkg : Package) : Option Int :=
  alistFind g.inDegree pkg

/-- DependencyGraph::setInDegree. -/
def setInDegree (g : DependencyGraph) (pkg : Package) (degree : Int) : DependencyGraph :=
  { g with inDegree := alistSet g.inDegree pkg degree }

/-- DependencyGraph::packageExists: membership among the adjacency keys. -/
def packageExists (g : DependencyGraph) (pkg : Package) : Bool :=
  (alistFind g.graph pkg).isSome

/-- Failure modes of the embedded analyses: `notFound` models the
`std::out_of_range` exception thrown by `at`, `outOfFuel` marks fuel
exhaustion of the embedding (proved unreachable for the fuel used). -/
inductive DGError where
  | notFound
  | outOfFuel
deriving DecidableEq

/-- Removal of the first occurrence of a package from a list; models
`unordered_set::erase` on the duplicate-free recursion stack. -/
def removePkg : List Package → Package → List Package
  | [], _ => []
  | x :: xs, p => if x = p then xs else x :: removePkg xs p

/-- The `for (dep : getDependencies(pkg))` loop of
CycleDetector::detectCycleUtil, parameterized by the recursive visit `f`:
visit each dependency in order, short-circuiting on a detected cycle and
threading the visited/recursion-stack state. -/
def dfsDeps (f : Package → List Package → List Package →
    Except DGError (Bool × List Package × List Package)) :
    List Package → List Package → List Package →
    Except DGError (Bool × List Package × List Package)
  | [], visited, recStack => .ok (false, visited, recStack)
  | d :: ds, visited, recStack =>
    match f d visited recStack with
    | .error e => .error e
    | .ok (true, v, r) => .ok (true, v, r)
    | .ok (false, v, r) => dfsDeps f ds v r

/-- Post-processing of the dependency loop's outcome in detectCycleUtil: a
detected cycle or error propagates unchanged; on a cycle-free return the
package is erased from the recursion stack. -/
def dfsWrap (pkg : Package) :
    Except DGError (Bool × List Package × List Package) →
    Except DGError (Bool × List Package × List Package)
  | .error e => .error e
  | .ok (true, v2, r2) => .ok (true, v2, r2)
  | .ok (false, v2, r2) => .ok (false, v2, removePkg r2 pkg)

/-- CycleDetector::detectCycleUtil: a package on the recursion stack signals
a cycle; a visited package is skipped; otherwise the package is marked
visited and pushed on the recursion stack, its dependencies are visited
recursively, and on a cycle-free return it is popped off the stack. -/
def dfsVisit (G : List (Package × List Package)) :
    Nat → Package → List Package → List Package →
    Except DGError (Bool × List Package × List Package)
  | 0, _, _, _ => .error .outOfFuel
  | fuel + 1, pkg, visited, recStack =>
    if pkg ∈ recStack then .ok (true, visited, recStack)
    else if pkg ∈ visited then .ok (false, visited, recStack)
    else
      match alistFind G pkg with
      | none => .error .notFound
      | some deps =>
        dfsWrap pkg (dfsDeps (dfsVisit G fuel) deps (pkg :: visited)
          (pkg :: recStack))

/-- The `for (pair : graph.graph)` loop of CycleDetector::detectCycle:
run the DFS from every key in turn, sharing the visited set, and return
true as soon as any start reports a cycle. -/
def detectCycleFrom (g : DependencyGraph) :
    List Package → List Package → List Package → Except DGError Bool
  | [], _, _ => .ok false
  | k :: ks, visited, recStack =>
    match dfsVisit g.graph (g.graph.length + 1) k visited recStack with
    | .error e => .error e
    | .ok (true, _, _) => .ok true
    | .ok (false, v, r) => detectCycleFrom g ks v r

/-- CycleDetector::detectCycle. -/
def detectCycle (g : DependencyGraph) : Except DGError Bool :=
  detectCycleFrom g (keysOf g) [] []

/-- The inner loop of TopologicalSorter::topologicalSort over the dequeued
package's dependencies: decrement each dependency's in-degree
(`setInDegree(dep, getInDegree(dep) - 1)`, where the lookup can throw) and
enqueue the dependency when its new in-degree is 0. -/
def processDeps : List Package → List Package → List (Package × Int) →
    Except DGError (List Package × List (Package × Int))
  | [], queue, indeg => .ok (queue, indeg)
  | d :: ds, queue, indeg =>
    match alistFind indeg d with
    | none => .error .notFound
    | some k =>
      processDeps ds (if k - 1 = 0 then queue ++ [d] else queue)
        (alistSet indeg d (k - 1))

/-- The seeding loop of TopologicalSorter::topologicalSort: every key whose
current in-degree is 0 is pushed onto the FIFO queue, in map iteration
order; the in-degree lookup of a key can throw. -/
def seedQueue : List (Package × List Package) → List (Package × Int) →
    Except DGError (List Package)
  | [], _ => .ok []
  | (p, _) :: rest, indeg =>
    match alistFind indeg p with
    | none => .error .notFound
    | some k =>
      match seedQueue rest indeg with
      | .error e => .error e
      | .ok q => .ok (if k = 0 then p :: q else q)

/-- The while-loop of TopologicalSorter::topologicalSort: dequeue a package,
append it to the sorted output, and process its dependencies (the
dependency lookup of the dequeued package can throw). -/
def topoLoop (g : DependencyGraph) :
    Nat → List Package → List Package → List (Package × Int) →
    Except DGError (List Package × List (Package × Int))
  | _, [], sorted, indeg => .ok (sorted, indeg)
  | 0, _ :: _, _, _ => .error .outOfFuel
  | fuel + 1, pkg :: rest, sorted, indeg =>
    match alistFind g.graph pkg with
    | none => .error .notFound
    | some deps =>
      match processDeps deps rest indeg with
      | .error e => .error e
      | .ok (queue2, indeg2) => topoLoop g fuel queue2 (sorted ++ [pkg]) indeg2

/-- TopologicalSorter::topologicalSort: seed the zero-in-degree queue and run
Kahn's algorithm, returning the produced order (`sortedPackages`, compared
against the package count by the caller) together with the mutated
in-degree map the graph is left with. -/
def topologicalSort (g : DependencyGraph) :
    Except DGError (List Package × List (Package × Int)) :=
  match seedQueue g.graph g.inDegree with
  | .error e => .error e
  | .ok q => topoLoop g (g.graph.length + 1) q [] g.inDegree

/-- VersionResolver::resolveVersion: plain equality of version strings. -/
def resolveVersion (pkg1 pkg2 : Package) : Bool :=
  pkg1.version == pkg2.version

/-- The edge scan of ConflictDetector::detectConflict: report true at the
first (package, dependency) pair whose versions differ. -/
def conflictScan : List (Package × List Package) → Bool
  | [] => false
  | (p, deps) :: rest =>
    deps.any (fun d => !resolveVersion p d) || conflictScan rest

/-- ConflictDetector::detectConflict. -/
def detectConflict (g : DependencyGraph) : Bool :=
  conflictScan g.graph

/-- One edge line of Visualizer::visualize. -/
def edgeLine (p d : Package) : String :=
  "  \"" ++ p.name ++ " " ++ p.version ++ "\" -> \"" ++
    d.name ++ " " ++ d.version ++ "\";\n"

/-- All edge lines of Visualizer::visualize, in adjacency iteration order. -/
def edgeLines : List (Package × List Package) → String
  | [] => ""
  | (p, deps) :: rest =>
    String.join (deps.map (fun d => edgeLine p d)) ++ edgeLines rest

/-- Visualizer::visualize: header line, one line per edge, footer line. -/
def visualize (g : DependencyGraph) : String :=
  "digraph dependencies \x7b\n" ++ edgeLines g.graph ++ "\x7d\n"

/-- ImpactAnalyzer::analyzeImpact: every key whose dependency set contains
the target is reported, in adjacency iteration order. -/
def analyzeImpact (g : DependencyGraph) (pkg : Package) : List Package :=
  (g.graph.filter (fun pair => decide (pkg ∈ pair.2))).map Prod.fst

/-- Position of the first occurrence of a package in a list (the list length
when absent); used to state that one package appears before another in the
produced topological order. -/
def posIn : List Package → Package → Nat
  | [], _ => 0
  | x :: xs, p => if x = p then 0 else posIn xs p + 1

/-- The dependency-edge relation of a graph: `p` depends directly on `d`
when `d` is a member of the dependency set stored for `p`. -/
def EdgeRel (g : DependencyGraph) (p d : Package) : Prop :=
  ∃ deps, alistFind g.graph p = some deps ∧ d ∈ deps

/-- The graph contains a directed cycle: some package reaches itself along a
nonempty chain of dependency edges. -/
def HasCycle (g : DependencyGraph) : Prop :=
  ∃ c, Relation.TransGen (EdgeRel g) c c

/-- The graph is acyclic: no package reaches itself along a nonempty chain
of dependency edges. -/
def Acyclic (g : DependencyGraph) : Prop :=
  ∀ c, ¬ Relation.TransGen (EdgeRel g) c c

/-- No cycle is reachable from `x`: the invariant satisfied by packages the
DFS has fully explored without reporting a cycle. -/
def ClearOf (g : DependencyGraph) (x : Package) : Prop :=
  ∀ y, Relation.ReflTransGen (EdgeRel g) x y →
    ¬ Relation.TransGen (EdgeRel g) y y

/-- Every dependency target is itself an adjacency key (the §3 invariant of
the spec; `main` maintains it by calling addPackage for every package). -/
def Registered (g : DependencyGraph) : Prop :=
  ∀ e ∈ g.graph, ∀ d ∈ e.2, d ∈ keysOf g

/-- Representation invariant of `unordered_map`: adjacency keys are
pairwise distinct. -/
def NodupKeys (g : DependencyGraph) : Prop := (keysOf g).Nodup

/-- Representation invariant of `unordered_set`: each stored dependency set
is duplicate-free. -/
def NodupDeps (g : DependencyGraph) : Prop := ∀ e ∈ g.graph, e.2.Nodup

/-- Well-formed graph: container representation invariants plus the
registered-targets invariant. -/
def WFGraph (g : DependencyGraph) : Prop :=
  NodupKeys g ∧ NodupDeps g ∧ Registered g

/-- Number of occurrences of a package in a list. -/
def occ (d : Package) : List Package → Nat
  | [] => 0
  | x :: xs => (if x = d then 1 else 0) + occ d xs

/-- Total number of dependency edges whose target is `d`, summed over the
adjacency entries. -/
def cntEdges (d : Package) : List (Package × List Package) → Nat
  | [] => 0
  | e :: rest => occ d e.2 + cntEdges d rest

/-- Incoming-edge count of `d` in a graph (what a fresh in-degree holds). -/
def cnt (g : DependencyGraph) (d : Package) : Nat := cntEdges d g.graph

/-- Number of edges into `d` whose source key lies in `sorted`. -/
def sortedCntEdges (sorted : List Package) (d : Package) :
    List (Package × List Package) → Nat
  | [] => 0
  | e :: rest =>
    (if e.1 ∈ sorted then occ d e.2 else 0) + sortedCntEdges sorted d rest

/-- Incoming-edge count of `d` restricted to already-output sources. -/
def sortedCnt (g : DependencyGraph) (sorted : List Package) (d : Package) : Nat :=
  sortedCntEdges sorted d g.graph

/-- Freshly computed in-degrees: the counter stored for every key equals its
incoming-edge count (the state `addPackage`/`addDependency` build when every
package is registered before any edge targets it and no edge repeats). -/
def FreshDeg (g : DependencyGraph) : Prop :=
  ∀ d ∈ keysOf g, alistFind g.inDegree d = some ((cnt g d : Int))

/-- The per-edge ordering property of the produced order: every dependent
appears strictly before each of its dependencies. -/
def OrdProp (g : DependencyGraph) (sorted : List Package) : Prop :=
  ∀ p d, EdgeRel g p d → d ∈ sorted →
    p ∈ sorted ∧ posIn sorted p < posIn sorted d

/-- Loop invariant of the embedded Kahn's algorithm, relating the pending
FIFO queue, the output produced so far and the current in-degree map. -/
def KahnInv (g : DependencyGraph)
    (queue sorted : List Package) (indeg : List (Package × Int)) : Prop :=
  (sorted ++ queue).Nodup ∧
  (∀ x ∈ sorted ++ queue, x ∈ keysOf g) ∧
  (∀ d ∈ keysOf g,
    alistFind indeg d = some ((cnt g d : Int) - (sortedCnt g sorted d : Int))) ∧
  (∀ d ∈ keysOf g, (d ∈ sorted ++ queue ↔ sortedCnt g sorted d = cnt g d)) ∧
  OrdProp g sorted

/-- A graph-building call, for stating properties of arbitrary
addPackage/addDependency call sequences. -/
inductive Op where
  | pkg (p : Package)
  | dep (p d : Package)
deriving DecidableEq

/-- Application of one graph-building call. -/
def applyOp (g : DependencyGraph) : Op → DependencyGraph
  | .pkg p => addPackage g p
  | .dep p d => addDependency g p d

/-- The graph built by a call sequence starting from the empty graph. -/
def applyOps (ops : List Op) : DependencyGraph :=
  ops.foldl applyOp freshGraph

/-- The (source, target) pairs of the addDependency calls of a sequence. -/
def depPairs (ops : List Op) : List (Package × Package) :=
  ops.filterMap (fun op => match op with
    | .dep p d => some (p, d)
    | .pkg _ => none)

/-- The targets of the addDependency calls of a sequence. -/
def depTargets (ops : List Op) : List Package :=
  (depPairs ops).map Prod.snd

/-- Check that no addPackage call follows an addDependency call targeting
the same package (`seen` accumulates the targets already bumped). -/
def regOk : List Package → List Op → Bool
  | _, [] => true
  | seen, .pkg p :: rest => !(decide (p ∈ seen)) && regOk seen rest
  | seen, .dep _ d :: rest => regOk (d :: seen) rest

/-- Number of packages whose stored dependency set contains `P` (the
derived value the spec says `inDegree` recomputes to). -/
def dependentsCount (g : DependencyGraph) (P : Package) : Nat :=
  (g.graph.filter (fun e => decide (P ∈ e.2))).length

/-- Package pkgA of the reference `main`. -/
def pkgA : Package := ⟨"pkgA", "1.0.1"⟩

/-- Package pkgB of the reference `main`. -/
def pkgB : Package := ⟨"pkgB", "2.3.0"⟩

/-- Package pkgC of the reference `main`. -/
def pkgC : Package := ⟨"pkgC", "3.1.2"⟩

/-- Package pkgD of the reference `main`. -/
def pkgD : Package := ⟨"pkgD", "1.5.0"⟩

/-- The graph the reference `main` builds: packages A-D, edges A→B, B→C,
A→D. -/
def gMain : DependencyGraph :=
  addDependency (addDependency (addDependency
    (addPackage (addPackage (addPackage (addPackage freshGraph pkgA)
      pkgB) pkgC) pkgD) pkgA pkgB) pkgB pkgC) pkgA pkgD

/-- One registered package and no edges. -/
def gSolo : DependencyGraph := addPackage freshGraph pkgA

/-- One registered package with a self-loop edge. -/
def gSelf : DependencyGraph :=
  addDependency (addPackage freshGraph pkgA) pkgA pkgA

/-- Two registered packages and the single edge A→B. -/
def gChain : DependencyGraph :=
  addDependency (addPackage (addPackage freshGraph pkgA) pkgB) pkgA pkgB

/-- A registered package A with an edge to the never-registered package B:
B is a dependency target with no adjacency entry of its own. -/
def gOrphan : DependencyGraph :=
  addDependency (addPackage freshGraph pkgA) pkgA pkgB

/-- Call sequence registering B only after an edge into B was added. -/
def opsLate : List Op := [.pkg pkgA, .dep pkgA pkgB, .pkg pkgB]

/-- Call sequence registering both packages before the edge. -/
def opsGood : List Op := [.pkg pkgA, .pkg pkgB, .dep pkgA pkgB]

/-- The graph object `gChain` is left as after one run of topologicalSort:
same adjacency, in-degree counters mutated to the values the run stores. -/
def gChainAfter : DependencyGraph :=
  ⟨gChain.graph, [(pkgA, 0), (pkgB, 0)]⟩

theorem alistFind_eq_some_mem {β : Type} {l : List (Package × β)} {p : Package}
    {v : β} (h : alistFind l p = some v) : (p, v) ∈ l := by
  induction l with
  | nil => simp [alistFind] at h
  | cons e rest ih =>
    obtain ⟨k, w⟩ := e
    by_cases hk : k = p
    · subst hk
      simp [alistFind] at h
      simp [h]
    · simp [alistFind, hk] at h
      exact List.mem_cons_of_mem _ (ih h)

theorem alistFind_isSome_iff {β : Type} {l : List (Package × β)} {p : Package} :
    (alistFind l p).isSome ↔ p ∈ l.map Prod.fst := by
  induction l with
  | nil => simp [alistFind]
  | cons e rest ih =>
    obtain ⟨k, w⟩ := e
    by_cases hk : k = p
    · subst hk; simp [alistFind]
    · simp [alistFind, hk, ih, Ne.symm hk]

theorem alistFind_of_mem_nodup {β : Type} {l : List (Package × β)}
    (hn : (l.map Prod.fst).Nodup) {p : Package} {v : β} (h : (p, v) ∈ l) :
    alistFind l p = some v := by
  induction l with
  | nil => simp at h
  | cons e rest ih =>
    obtain ⟨k, w⟩ := e
    rw [List.map_cons, List.nodup_cons] at hn
    rcases List.mem_cons.mp h with h1 | h1
    · cases h1
      simp [alistFind]
    · have hkp : k ≠ p := by
        intro hkp
        subst hkp
        exact hn.1 (List.mem_map.mpr ⟨(k, v), h1, rfl⟩)
      simp [alistFind, hkp]
      exact ih hn.2 h1

theorem alistFind_set_self (l : List (Package × Int)) (p : Package) (v : Int) :
    alistFind (alistSet l p v) p = some v := by
  induction l with
  | nil => simp [alistSet, alistFind]
  | cons e rest ih =>
    obtain ⟨k, w⟩ := e
    by_cases hk : k = p
    · subst hk; simp [alistSet, alistFind]
    · simp [alistSet, alistFind, hk, ih]

theorem alistFind_set_ne (l : List (Package × Int)) {p q : Package}
    (h : q ≠ p) (v : Int) : alistFind (alistSet l p v) q = alistFind l q := by
  induction l with
  | nil => simp [alistSet, alistFind, Ne.symm h]
  | cons e rest ih =>
    obtain ⟨k, w⟩ := e
    by_cases hk : k = p
    · subst hk
      simp [alistSet, alistFind, Ne.symm h]
    · by_cases hq : k = q <;> simp [alistSet, alistFind, hk, hq, h, ih]

theorem alistFind_bump_self (l : List (Package × Int)) (p : Package) :
    alistFind (alistBump l p) p = some ((alistFind l p).getD 0 + 1) := by
  induction l with
  | nil => simp [alistBump, alistFind]
  | cons e rest ih =>
    obtain ⟨k, w⟩ := e
    by_cases hk : k = p
    · subst hk; simp [alistBump, alistFind]
    · simp [alistBump, alistFind, hk, ih]

theorem alistFind_bump_ne (l : List (Package × Int)) {p q : Package}
    (h : q ≠ p) : alistFind (alistBump l p) q = alistFind l q := by
  induction l with
  | nil => simp [alistBump, alistFind, Ne.symm h]
  | cons e rest ih =>
    obtain ⟨k, w⟩ := e
    by_cases hk : k = p
    · subst hk
      simp [alistBump, alistFind, Ne.symm h]
    · by_cases hq : k = q <;> simp [alistBump, alistFind, hk, hq, h, ih]

theorem mem_setAdd {s : List Package} {d x : Package} :
    x ∈ setAdd s d ↔ x ∈ s ∨ x = d := by
  by_cases hd : d ∈ s
  · simp [setAdd, hd]
    intro hx
    subst hx
    exact hd
  · simp [setAdd, hd]

theorem alistFind_insertDep_self (l : List (Package × List Package))
    (p d : Package) :
    alistFind (alistInsertDep l p d) p =
      some (setAdd ((alistFind l p).getD []) d) := by
  induction l with
  | nil => simp [alistInsertDep, alistFind, setAdd]
  | cons e rest ih =>
    obtain ⟨k, w⟩ := e
    by_cases hk : k = p
    · subst hk; simp [alistInsertDep, alistFind]
    · simp [alistInsertDep, alistFind, hk, ih]

theorem alistFind_insertDep_ne (l : List (Package × List Package))
    {p q : Package} (h : q ≠ p) (d : Package) :
    alistFind (alistInsertDep l p d) q = alistFind l q := by
  induction l with
  | nil => simp [alistInsertDep, alistFind, Ne.symm h]
  | cons e rest ih =>
    obtain ⟨k, w⟩ := e
    by_cases hk : k = p
    · subst hk
      simp [alistInsertDep, alistFind, Ne.symm h]
    · by_cases hq : k = q <;> simp [alistInsertDep, alistFind, hk, hq, h, ih]

theorem alistInsertDep_of_none {l : List (Package × List Package)}
    {p : Package} (h : alistFind l p = none) (d : Package) :
    alistInsertDep l p d = l ++ [(p, [d])] := by
  induction l with
  | nil => simp [alistInsertDep]
  | cons e rest ih =>
    obtain ⟨k, w⟩ := e
    by_cases hk : k = p
    · subst hk
      simp [alistFind] at h
    · simp [alistFind, hk] at h
      simp [alistInsertDep, hk, ih h]

theorem mem_insertDep {l : List (Package × List Package)} {p d : Package}
    {e : Package × List Package} (h : e ∈ alistInsertDep l p d) :
    e ∈ l ∨ (∃ olddeps, (p, olddeps) ∈ l ∧ e = (p, setAdd olddeps d)) ∨
      e = (p, [d]) := by
  induction l with
  | nil =>
    simp [alistInsertDep] at h
    simp [h]
  | cons e0 rest ih =>
    obtain ⟨k, w⟩ := e0
    by_cases hk : k = p
    · subst hk
      simp [alistInsertDep] at h
      rcases h with h | h
      · exact Or.inr (Or.inl ⟨w, by simp, h⟩)
      · exact Or.inl (List.mem_cons_of_mem _ h)
    · simp [alistInsertDep, hk] at h
      rcases h with h | h
      · exact Or.inl (by simp [h])
      · rcases ih h with h1 | h1 | h1
        · exact Or.inl (List.mem_cons_of_mem _ h1)
        · obtain ⟨od, hod, he⟩ := h1
          exact Or.inr (Or.inl ⟨od, List.mem_cons_of_mem _ hod, he⟩)
        · exact Or.inr (Or.inr h1)

theorem conflictScan_iff (l : List (Package × List Package)) :
    conflictScan l = true ↔
      ∃ e ∈ l, ∃ d ∈ e.2, e.1.version ≠ d.version := by
  induction l with
  | nil => simp [conflictScan]
  | cons e rest ih =>
    obtain ⟨q, deps⟩ := e
    constructor
    · intro h
      rw [conflictScan, Bool.or_eq_true] at h
      rcases h with h1 | h1
      · obtain ⟨d, hd, hv⟩ := List.any_eq_true.mp h1
        refine ⟨(q, deps), List.mem_cons_self _ _, d, hd, ?_⟩
        simpa [resolveVersion] using hv
      · obtain ⟨e, he, hrest⟩ := ih.mp h1
        exact ⟨e, List.mem_cons_of_mem _ he, hrest⟩
    · rintro ⟨e, he, d, hd, hv⟩
      rw [conflictScan, Bool.or_eq_true]
      rcases List.mem_cons.mp he with h1 | h1
      · subst h1
        exact Or.inl (List.any_eq_true.mpr
          ⟨d, hd, by simpa [resolveVersion] using hv⟩)
      · exact Or.inr (ih.mpr ⟨e, h1, d, hd, hv⟩)

/-- Claim C9: detectConflict returns true exactly when some
(package, dependency) edge has endpoints with differing version strings
(it reports the first such pair and returns false only after scanning all
edges without finding one). -/
theorem c9_conflict_iff (g : DependencyGraph) :
    detectConflict g = true ↔
      ∃ p deps d, (p, deps) ∈ g.graph ∧ d ∈ deps ∧
        p.version ≠ d.version := by
  rw [detectConflict, conflictScan_iff]
  constructor
  · rintro ⟨⟨p, deps⟩, he, d, hd, hv⟩
    exact ⟨p, deps, d, he, hd, hv⟩
  · rintro ⟨p, deps, d, he, hd, hv⟩
    exact ⟨(p, deps), he, d, hd, hv⟩

/-- Claim C8: analyzeImpact reports exactly the direct dependents of the
target: the packages whose stored dependency set contains it, and no
transitive dependents. -/
theorem c8_impact_exact (g : DependencyGraph) (t p : Package) :
    p ∈ analyzeImpact g t ↔ ∃ deps, (p, deps) ∈ g.graph ∧ t ∈ deps := by
  unfold analyzeImpact
  constructor
  · intro h
    obtain ⟨⟨q, deps⟩, he, hfst⟩ := List.mem_map.mp h
    obtain ⟨hmem, hdec⟩ := List.mem_filter.mp he
    cases hfst
    exact ⟨deps, hmem, by simpa using hdec⟩
  · rintro ⟨deps, hm, ht⟩
    exact List.mem_map.mpr ⟨(p, deps), List.mem_filter.mpr ⟨hm, by simpa⟩, rfl⟩

/-- Claim C6 counterexample: addDependency with a source that was never
registered still auto-creates that source's adjacency entry ---
`graph[pkg]` default-constructs the entry unconditionally, not only when
the package already exists. -/
theorem c6_counterexample :
    packageExists freshGraph pkgA = false ∧
    packageExists (addDependency freshGraph pkgA pkgB) pkgA = true :=
  ⟨rfl, rfl⟩

/-- Claim C6 (amended): addDependency(p, d) auto-creates the adjacency
entry for p unconditionally (even when p was never registered), and it
increments d's in-degree even when d was never registered, leaving d with
an in-degree entry but no adjacency entry (an orphaned counter). -/
theorem c6_adddependency_autocreate (g : DependencyGraph) (p d : Package) :
    packageExists (addDependency g p d) p = true ∧
    alistFind (addDependency g p d).inDegree d =
      some ((alistFind g.inDegree d).getD 0 + 1) ∧
    (packageExists g d = false → d ≠ p →
      packageExists (addDependency g p d) d = false) := by
  refine ⟨?_, ?_, ?_⟩
  · show (alistFind (alistInsertDep g.graph p d) p).isSome = true
    rw [alistFind_insertDep_self]
    rfl
  · show alistFind (alistBump g.inDegree d) d = _
    exact alistFind_bump_self g.inDegree d
  · intro h hne
    show (alistFind (alistInsertDep g.graph p d) d).isSome = false
    rw [alistFind_insertDep_ne g.graph hne d]
    exact h

theorem c6_adddependency_autocreate_witness :
    packageExists (addDependency freshGraph pkgA pkgB) pkgA = true ∧
    alistFind (addDependency freshGraph pkgA pkgB).inDegree pkgB =
      some ((alistFind freshGraph.inDegree pkgB).getD 0 + 1) ∧
    packageExists (addDependency freshGraph pkgA pkgB) pkgB = false := by
  obtain ⟨h1, h2, h3⟩ := c6_adddependency_autocreate freshGraph pkgA pkgB
  exact ⟨h1, h2, h3 rfl (by decide)⟩

/-- Claim C4 counterexample: after addPackage A, addDependency A→B,
addPackage B, the stored in-degree of B is 0 although one package (A)
has B in its dependency set --- the late addPackage clobbers the
accumulated count. -/
theorem c4_counterexample :
    ¬ ((alistFind (applyOps opsLate).inDegree pkgB).getD 0 =
        (dependentsCount (applyOps opsLate) pkgB : Int)) := by
  decide

/-- Claim C5 counterexample: on the graph A→B (fresh in-degrees), a run of
topologicalSort leaves the counters zeroed, and a second run on the
resulting graph returns the full two-package order [A, B] --- not an empty
sequence. -/
theorem c5_counterexample :
    topologicalSort gChain = .ok ([pkgA, pkgB], gChainAfter.inDegree) ∧
    topologicalSort gChainAfter =
      .ok ([pkgA, pkgB], [(pkgA, 0), (pkgB, -1)]) ∧
    ([pkgA, pkgB] : List Package) ≠ [] := by
  refine ⟨rfl, rfl, by simp⟩

/-- Claim C7 counterexample: gOrphan contains the dependency target B with
no adjacency entry of its own, and on it detectCycle and topologicalSort
do not complete --- both fail with the NotFound lookup error. -/
theorem c7_counterexample :
    alistFind gOrphan.graph pkgA = some [pkgB] ∧
    alistFind gOrphan.graph pkgB = none ∧
    detectCycle gOrphan = .error .notFound ∧
    topologicalSort gOrphan = .error .notFound :=
  ⟨rfl, rfl, rfl, rfl⟩

/-- Claim C7 (amended): on a graph with an unregistered dependency target,
detectConflict, visualize and analyzeImpact complete (iterating only the
adjacency entries that exist), while detectCycle and topologicalSort fail
with NotFound when they look the missing entry up. -/
theorem c7_orphan_tolerance :
    alistFind gOrphan.graph pkgB = none ∧
    detectConflict gOrphan = true ∧
    visualize gOrphan =
      "digraph dependencies \x7b\n  \"pkgA 1.0.1\" -> \"pkgB 2.3.0\";\n\x7d\n" ∧
    analyzeImpact gOrphan pkgB = [pkgA] ∧
    detectCycle gOrphan = .error .notFound ∧
    topologicalSort gOrphan = .error .notFound :=
  ⟨rfl, rfl, rfl, rfl, rfl, rfl⟩

/-- Claim C10: detectConflict, visualize and analyzeImpact read only the
adjacency entries that exist (their results do not depend on the in-degree
map at all, where the orphaned counters live), and on a graph with an
orphaned dependency target they complete with ordinary values while
detectCycle and topologicalSort raise NotFound. -/
theorem c10_read_only_analyses_total :
    (∀ g g2 : DependencyGraph, ∀ t : Package, g.graph = g2.graph →
      detectConflict g = detectConflict g2 ∧ visualize g = visualize g2 ∧
        analyzeImpact g t = analyzeImpact g2 t) ∧
    detectConflict gOrphan = true ∧
    analyzeImpact gOrphan pkgB = [pkgA] ∧
    detectCycle gOrphan = .error .notFound ∧
    topologicalSort gOrphan = .error .notFound := by
  refine ⟨?_, rfl, rfl, rfl, rfl⟩
  intro g g2 t h
  exact ⟨by simp [detectConflict, h], by simp [visualize, h],
    by simp [analyzeImpact, h]⟩

theorem c10_read_only_analyses_total_witness :
    detectConflict gOrphan = detectConflict ⟨gOrphan.graph, []⟩ ∧
    visualize gOrphan = visualize ⟨gOrphan.graph, []⟩ ∧
    analyzeImpact gOrphan pkgB = analyzeImpact ⟨gOrphan.graph, []⟩ pkgB :=
  c10_read_only_analyses_total.1 gOrphan ⟨gOrphan.graph, []⟩ pkgB rfl

theorem applyOps_append (ops : List Op) (op : Op) :
    applyOps (ops ++ [op]) = applyOp (applyOps ops) op := by
  simp [applyOps, List.foldl_append]

theorem depPairs_append_pkg (ops : List Op) (p : Package) :
    depPairs (ops ++ [.pkg p]) = depPairs ops := by
  simp [depPairs]

theorem depPairs_append_dep (ops : List Op) (p d : Package) :
    depPairs (ops ++ [.dep p d]) = depPairs ops ++ [(p, d)] := by
  simp [depPairs]

theorem depTargets_cons_pkg (q : Package) (rest : List Op) :
    depTargets (.pkg q :: rest) = depTargets rest := by
  simp [depTargets, depPairs]

theorem depTargets_cons_dep (q d : Package) (rest : List Op) :
    depTargets (.dep q d :: rest) = d :: depTargets rest := by
  simp [depTargets, depPairs]

theorem mem_depTargets_of_mem_depPairs {ops : List Op} {p d : Package}
    (h : (p, d) ∈ depPairs ops) : d ∈ depTargets ops :=
  List.mem_map.mpr ⟨(p, d), h, rfl⟩

theorem regOk_append_pkg : ∀ (l : List Op) (seen : List Package) (p : Package),
    regOk seen (l ++ [.pkg p]) = true →
    regOk seen l = true ∧ p ∉ depTargets l ∧ p ∉ seen := by
  intro l
  induction l with
  | nil =>
    intro seen p h
    simp [regOk] at h
    exact ⟨rfl, by simp [depTargets, depPairs], h⟩
  | cons op rest ih =>
    intro seen p h
    cases op with
    | pkg q =>
      rw [List.cons_append, regOk, Bool.and_eq_true] at h
      obtain ⟨hq, hrest⟩ := h
      obtain ⟨h1, h2, h3⟩ := ih seen p hrest
      refine ⟨?_, ?_, h3⟩
      · rw [regOk, Bool.and_eq_true]
        exact ⟨hq, h1⟩
      · rwa [depTargets_cons_pkg]
    | dep q d =>
      rw [List.cons_append, regOk] at h
      obtain ⟨h1, h2, h3⟩ := ih (d :: seen) p h
      refine ⟨h1, ?_, ?_⟩
      · rw [depTargets_cons_dep]
        intro hm
        rcases List.mem_cons.mp hm with hm | hm
        · exact h3 (by simp [hm])
        · exact h2 hm
      · intro hm
        exact h3 (List.mem_cons_of_mem _ hm)

theorem regOk_append_dep : ∀ (l : List Op) (seen : List Package)
    (p d : Package), regOk seen (l ++ [.dep p d]) = true →
    regOk seen l = true := by
  intro l
  induction l with
  | nil => intro seen p d _; rfl
  | cons op rest ih =>
    intro seen p d h
    cases op with
    | pkg q =>
      rw [List.cons_append, regOk, Bool.and_eq_true] at h
      rw [regOk, Bool.and_eq_true]
      exact ⟨h.1, ih seen p d h.2⟩
    | dep q d0 =>
      rw [List.cons_append, regOk] at h
      rw [regOk]
      exact ih (d0 :: seen) p d h

theorem applyOps_dep_mem : ∀ (ops : List Op)
    (e : Package × List Package), e ∈ (applyOps ops).graph →
    ∀ d ∈ e.2, (e.1, d) ∈ depPairs ops := by
  intro ops
  induction ops using List.reverseRecOn with
  | nil => intro e he; simp [applyOps, freshGraph] at he
  | append_singleton l op ih =>
    intro e he d hd
    cases op with
    | pkg p =>
      rw [applyOps_append] at he
      rw [depPairs_append_pkg]
      have he' : e ∈ (applyOps l).graph := by
        by_cases hc : (alistFind (applyOps l).graph p).isSome
        · simpa [applyOp, addPackage, hc] using he
        · have h2 : e ∈ (applyOps l).graph ∨ e = (p, []) := by
            simpa [applyOp, addPackage, hc] using he
          rcases h2 with h1 | h1
          · exact h1
          · rw [h1] at hd
            simp at hd
      exact ih e he' d hd
    | dep p d0 =>
      rw [applyOps_append] at he
      rw [depPairs_append_dep]
      have he' : e ∈ alistInsertDep (applyOps l).graph p d0 := he
      rcases mem_insertDep he' with h1 | h1 | h1
      · exact List.mem_append_left _ (ih e h1 d hd)
      · obtain ⟨od, hod, hEq⟩ := h1
        rw [hEq] at hd
        simp only at hd
        rcases mem_setAdd.mp hd with h2 | h2
        · have := ih (p, od) hod d h2
          rw [hEq]
          exact List.mem_append_left _ this
        · rw [hEq, h2]
          exact List.mem_append_right _ (by simp)
      · rw [h1] at hd
        simp at hd
        rw [h1, hd]
        exact List.mem_append_right _ (by simp)

theorem dependentsCount_addPackage (g : DependencyGraph) (q P : Package) :
    dependentsCount (addPackage g q) P = dependentsCount g P := by
  unfold dependentsCount addPackage
  by_cases hc : (alistFind g.graph q).isSome
  · simp [hc]
  · simp [hc, List.filter_append]

theorem dependentsCount_eq_zero (g : DependencyGraph) (P : Package)
    (h : ∀ e ∈ g.graph, P ∉ e.2) : dependentsCount g P = 0 := by
  unfold dependentsCount
  rw [List.length_eq_zero, List.filter_eq_nil]
  intro e he
  simpa using h e he

theorem countDeps_insertDep : ∀ (l : List (Package × List Package))
    (p d P : Package) (deps : List Package),
    alistFind l p = some deps → d ∉ deps →
    (List.filter (fun e => decide (P ∈ e.2)) (alistInsertDep l p d)).length =
      (List.filter (fun e => decide (P ∈ e.2)) l).length +
        (if P = d then 1 else 0) := by
  intro l
  induction l with
  | nil => intro p d P deps hf; simp [alistFind] at hf
  | cons e0 rest ih =>
    intro p d P deps hf hd
    obtain ⟨k, w⟩ := e0
    by_cases hk : k = p
    · subst hk
      simp [alistFind] at hf
      subst hf
      by_cases hP : P = d
      · subst hP
        have hmem : P ∈ setAdd w P := mem_setAdd.mpr (Or.inr rfl)
        simp [alistInsertDep, List.filter, hmem, hd]
      · have hiff : (P ∈ setAdd w d) = (P ∈ w) := by
          simp [mem_setAdd, hP]
        simp [alistInsertDep, List.filter, hiff, hP]
        by_cases hw : P ∈ w <;> simp [hw]
    · simp [alistFind, hk] at hf
      have h5 := ih p d P deps hf hd
      by_cases hw : P ∈ w <;>
        simp [alistInsertDep, hk, List.filter, hw, h5] <;> omega

theorem dependentsCount_addDependency (g : DependencyGraph) (p d P : Package)
    (hnew : ∀ deps, alistFind g.graph p = some deps → d ∉ deps) :
    dependentsCount (addDependency g p d) P =
      dependentsCount g P + (if P = d then 1 else 0) := by
  cases hfind : alistFind g.graph p with
  | none =>
    have hg : (addDependency g p d).graph = g.graph ++ [(p, [d])] := by
      show alistInsertDep g.graph p d = _
      exact alistInsertDep_of_none hfind d
    unfold dependentsCount
    rw [hg, List.filter_append]
    by_cases hP : P = d
    · subst hP
      simp [List.filter]
    · simp [List.filter, hP]
  | some deps =>
    exact countDeps_insertDep g.graph p d P deps hfind (hnew deps hfind)

/-- Claim C4 (amended): for call sequences in which no addPackage(P)
follows an addDependency targeting P and no addDependency pair repeats,
the stored in-degree of every package equals the number of packages whose
dependency set contains it (reading an absent counter as 0). -/
theorem c4_indegree_derived (ops : List Op)
    (h1 : (depPairs ops).Nodup) (h2 : regOk [] ops = true) :
    ∀ P, (alistFind (applyOps ops).inDegree P).getD 0 =
      (dependentsCount (applyOps ops) P : Int) := by
  induction ops using List.reverseRecOn with
  | nil =>
    intro P
    simp [applyOps, freshGraph, alistFind, dependentsCount]
  | append_singleton l op ih =>
    cases op with
    | pkg p =>
      have h1l : (depPairs l).Nodup := by rwa [depPairs_append_pkg] at h1
      obtain ⟨h2l, hpt, -⟩ := regOk_append_pkg l [] p h2
      have ihP := ih h1l h2l
      intro P
      rw [applyOps_append]
      show (alistFind (addPackage (applyOps l) p).inDegree P).getD 0 = _
      rw [show (addPackage (applyOps l) p).inDegree =
        alistSet (applyOps l).inDegree p 0 from rfl]
      rw [show dependentsCount (applyOp (applyOps l) (Op.pkg p)) P =
        dependentsCount (applyOps l) P from
        dependentsCount_addPackage (applyOps l) p P]
      by_cases hP : P = p
      · subst hP
        rw [alistFind_set_self]
        have hz : dependentsCount (applyOps l) P = 0 := by
          apply dependentsCount_eq_zero
          intro e he hm
          exact hpt (mem_depTargets_of_mem_depPairs
            (applyOps_dep_mem l e he P hm))
        simp [hz]
      · rw [alistFind_set_ne _ hP 0]
        exact ihP P
    | dep p d =>
      rw [depPairs_append_dep] at h1
      have h1l : (depPairs l).Nodup := h1.of_append_left
      have hpd_not : (p, d) ∉ depPairs l := by
        intro hmem
        exact (List.disjoint_of_nodup_append h1) hmem (by simp)
      have h2l : regOk [] l = true := regOk_append_dep l [] p d h2
      have ihP := ih h1l h2l
      intro P
      rw [applyOps_append]
      show (alistFind (addDependency (applyOps l) p d).inDegree P).getD 0 = _
      have hnew : ∀ deps, alistFind (applyOps l).graph p = some deps →
          d ∉ deps := by
        intro deps hf hdm
        exact hpd_not
          (applyOps_dep_mem l (p, deps) (alistFind_eq_some_mem hf) d hdm)
      rw [show dependentsCount (applyOp (applyOps l) (Op.dep p d)) P =
        dependentsCount (applyOps l) P + (if P = d then 1 else 0) from
        dependentsCount_addDependency (applyOps l) p d P hnew]
      rw [show (addDependency (applyOps l) p d).inDegree =
        alistBump (applyOps l).inDegree d from rfl]
      by_cases hP : P = d
      · subst hP
        rw [alistFind_bump_self]
        simp only [Option.getD_some]
        rw [ihP P]
        simp
      · rw [alistFind_bump_ne _ hP]
        rw [ihP P]
        simp [hP]

theorem c4_indegree_derived_witness :
    (alistFind (applyOps opsGood).inDegree pkgB).getD 0 =
      (dependentsCount (applyOps opsGood) pkgB : Int) :=
  c4_indegree_derived opsGood (by decide) (by decide) pkgB

theorem removePkg_cons_head (r : List Package) (p : Package) :
    removePkg (p :: r) p = r := by
  simp [removePkg]

theorem transGen_first_edge {α : Type} {r : α → α → Prop} {a b : α}
    (h : Relation.TransGen r a b) : ∃ x, r a x := by
  induction h with
  | single h => exact ⟨_, h⟩
  | tail h1 h2 ih => exact ih

theorem cycle_node_mem_keys (g : DependencyGraph) {c : Package}
    (hc : Relation.TransGen (EdgeRel g) c c) : c ∈ keysOf g := by
  obtain ⟨x, hx⟩ := transGen_first_edge hc
  obtain ⟨deps, hf, -⟩ := hx
  have : (alistFind g.graph c).isSome := by rw [hf]; rfl
  exact alistFind_isSome_iff.mp this

theorem no_edge_acyclic (g : DependencyGraph)
    (h : ∀ p d, ¬ EdgeRel g p d) : Acyclic g := by
  intro c hc
  cases hc with
  | single h1 => exact h _ _ h1
  | tail h1 h2 => exact h _ _ h2

theorem edge_dep_mem {g : DependencyGraph} {pkg d : Package}
    {deps : List Package} (he : EdgeRel g pkg d)
    (hf : alistFind g.graph pkg = some deps) : d ∈ deps := by
  obtain ⟨deps2, hf2, hm⟩ := he
  rw [hf] at hf2
  cases hf2
  exact hm

theorem dfsDeps_mono {f : Package → List Package → List Package →
    Except DGError (Bool × List Package × List Package)}
    (Hf : ∀ pkg v r b v2 r2, f pkg v r = .ok (b, v2, r2) → v ⊆ v2) :
    ∀ (ds v r : List Package) (b : Bool) (v2 r2 : List Package),
      dfsDeps f ds v r = .ok (b, v2, r2) → v ⊆ v2 := by
  intro ds
  induction ds with
  | nil =>
    intro v r b v2 r2 h
    simp only [dfsDeps, Except.ok.injEq, Prod.mk.injEq] at h
    obtain ⟨-, hv, -⟩ := h
    subst hv
    exact List.Subset.refl v
  | cons d rest ih =>
    intro v r b v2 r2 h
    rw [dfsDeps] at h
    cases hf : f d v r with
    | error e => rw [hf] at h; simp at h
    | ok t =>
      obtain ⟨b1, v1, r1⟩ := t
      rw [hf] at h
      cases b1 with
      | true =>
        simp only [Except.ok.injEq, Prod.mk.injEq] at h
        obtain ⟨-, hv, -⟩ := h
        subst hv
        exact Hf d v r true v1 r1 hf
      | false =>
        exact (Hf d v r false v1 r1 hf).trans (ih v1 r1 b v2 r2 h)

theorem dfsVisit_mono (G : List (Package × List Package)) :
    ∀ (fuel : Nat) (pkg : Package) (v r : List Package) (b : Bool)
      (v2 r2 : List Package),
      dfsVisit G fuel pkg v r = .ok (b, v2, r2) → v ⊆ v2 := by
  intro fuel
  induction fuel with
  | zero => intro pkg v r b v2 r2 h; simp [dfsVisit] at h
  | succ n ih =>
    intro pkg v r b v2 r2 h
    rw [dfsVisit] at h
    split at h
    · simp only [Except.ok.injEq, Prod.mk.injEq] at h
      obtain ⟨-, hv, -⟩ := h
      subst hv
      exact List.Subset.refl v
    · split at h
      · simp only [Except.ok.injEq, Prod.mk.injEq] at h
        obtain ⟨-, hv, -⟩ := h
        subst hv
        exact List.Subset.refl v
      · split at h
        · simp at h
        · rename_i deps hfind
          cases hd : dfsDeps (dfsVisit G n) deps (pkg :: v) (pkg :: r) with
          | error e => rw [hd] at h; simp [dfsWrap] at h
          | ok t =>
            obtain ⟨b1, v1, r1⟩ := t
            rw [hd] at h
            have hsub : pkg :: v ⊆ v1 :=
              dfsDeps_mono (fun a c d e f g hh => ih a c d e f g hh)
                deps (pkg :: v) (pkg :: r) b1 v1 r1 hd
            have hsub2 : v ⊆ v1 := (List.subset_cons_self pkg v).trans hsub
            cases b1 with
            | true =>
              simp only [dfsWrap, Except.ok.injEq, Prod.mk.injEq] at h
              obtain ⟨-, hv, -⟩ := h
              subst hv
              exact hsub2
            | false =>
              simp only [dfsWrap, Except.ok.injEq, Prod.mk.injEq] at h
              obtain ⟨-, hv, -⟩ := h
              subst hv
              exact hsub2

theorem dfsDeps_rec {f : Package → List Package → List Package →
    Except DGError (Bool × List Package × List Package)}
    (Hf : ∀ pkg v r v2 r2, f pkg v r = .ok (false, v2, r2) → r2 = r) :
    ∀ (ds v r : List Package) (v2 r2 : List Package),
      dfsDeps f ds v r = .ok (false, v2, r2) → r2 = r := by
  intro ds
  induction ds with
  | nil =>
    intro v r v2 r2 h
    simp only [dfsDeps, Except.ok.injEq, Prod.mk.injEq] at h
    exact h.2.2.symm
  | cons d rest ih =>
    intro v r v2 r2 h
    rw [dfsDeps] at h
    cases hf : f d v r with
    | error e => rw [hf] at h; simp at h
    | ok t =>
      obtain ⟨b1, v1, r1⟩ := t
      rw [hf] at h
      cases b1 with
      | true => simp at h
      | false =>
        have hr1 : r1 = r := Hf d v r v1 r1 hf
        subst hr1
        exact ih v1 r1 v2 r2 h

theorem dfsVisit_rec (G : List (Package × List Package)) :
    ∀ (fuel : Nat) (pkg : Package) (v r : List Package)
      (v2 r2 : List Package),
      dfsVisit G fuel pkg v r = .ok (false, v2, r2) → r2 = r := by
  intro fuel
  induction fuel with
  | zero => intro pkg v r v2 r2 h; simp [dfsVisit] at h
  | succ n ih =>
    intro pkg v r v2 r2 h
    rw [dfsVisit] at h
    split at h
    · simp at h
    · split at h
      · simp only [Except.ok.injEq, Prod.mk.injEq] at h
        exact h.2.2.symm
      · split at h
        · simp at h
        · rename_i deps hfind
          cases hd : dfsDeps (dfsVisit G n) deps (pkg :: v) (pkg :: r) with
          | error e => rw [hd] at h; simp [dfsWrap] at h
          | ok t =>
            obtain ⟨b1, v1, r1⟩ := t
            rw [hd] at h
            cases b1 with
            | true => simp [dfsWrap] at h
            | false =>
              have hr1 : r1 = pkg :: r :=
                dfsDeps_rec (fun a c d e f hh => ih a c d e f hh)
                  deps (pkg :: v) (pkg :: r) v1 r1 hd
              simp only [dfsWrap, Except.ok.injEq, Prod.mk.injEq] at h
              obtain ⟨-, -, hr⟩ := h
              rw [← hr, hr1, removePkg_cons_head]

theorem dfsVisit_stack (G : List (Package × List Package))
    (fuel : Nat) (pkg : Package) (v r : List Package) (b : Bool)
    (v2 r2 : List Package)
    (h : dfsVisit G fuel pkg v r = .ok (b, v2, r2)) (hmem : pkg ∈ r) :
    b = true := by
  cases fuel with
  | zero => simp [dfsVisit] at h
  | succ n =>
    rw [dfsVisit] at h
    simp only [if_pos hmem, Except.ok.injEq, Prod.mk.injEq] at h
    exact h.1.symm

theorem filter_notMem_le {K v v2 : List Package} (hsub : v ⊆ v2) :
    (K.filter (fun x => decide (x ∉ v2))).length ≤
      (K.filter (fun x => decide (x ∉ v))).length := by
  induction K with
  | nil => simp
  | cons k rest ih =>
    by_cases h2 : k ∈ v2
    · by_cases h1 : k ∈ v
      · simp [List.filter_cons, h1, h2] at ih ⊢
        omega
      · simp [List.filter_cons, h1, h2] at ih ⊢
        omega
    · have h1 : k ∉ v := fun hk => h2 (hsub hk)
      simp [List.filter_cons, h1, h2] at ih ⊢
      omega

theorem filter_notMem_cons_lt {K v : List Package} {pkg : Package}
    (hK : pkg ∈ K) (hv : pkg ∉ v) :
    (K.filter (fun x => decide (x ∉ pkg :: v))).length <
      (K.filter (fun x => decide (x ∉ v))).length := by
  induction K with
  | nil => simp at hK
  | cons k rest ih =>
    by_cases hk : k = pkg
    · subst hk
      have hle : (rest.filter (fun x => decide (x ∉ k :: v))).length ≤
          (rest.filter (fun x => decide (x ∉ v))).length :=
        filter_notMem_le (List.subset_cons_self k v)
      simp [List.filter_cons, hv] at hle ⊢
      omega
    · have hmem : pkg ∈ rest := by
        rcases List.mem_cons.mp hK with h | h
        · exact absurd h.symm hk
        · exact h
      have ihm := ih hmem
      by_cases h1 : k ∈ v
      · simp [List.filter_cons, h1, hk] at ihm ⊢
        omega
      · simp [List.filter_cons, h1, hk] at ihm ⊢
        omega

theorem dfsDeps_total {f : Package → List Package → List Package →
    Except DGError (Bool × List Package × List Package)}
    {K : List Package} {n : Nat}
    (HfT : ∀ pkg v r, pkg ∈ K →
      (K.filter (fun x => decide (x ∉ v))).length < n →
      ∃ b v2 r2, f pkg v r = .ok (b, v2, r2))
    (Hfm : ∀ pkg v r b v2 r2, f pkg v r = .ok (b, v2, r2) → v ⊆ v2) :
    ∀ (ds v r : List Package), (∀ x ∈ ds, x ∈ K) →
      (K.filter (fun x => decide (x ∉ v))).length < n →
      ∃ b v2 r2, dfsDeps f ds v r = .ok (b, v2, r2) := by
  intro ds
  induction ds with
  | nil => intro v r _ _; exact ⟨false, v, r, rfl⟩
  | cons d rest ih =>
    intro v r hds hn
    obtain ⟨b1, v1, r1, h1⟩ := HfT d v r (hds d (by simp)) hn
    cases b1 with
    | true =>
      refine ⟨true, v1, r1, ?_⟩
      rw [dfsDeps, h1]
    | false =>
      have hsub : v ⊆ v1 := Hfm d v r false v1 r1 h1
      have hn1 : (K.filter (fun x => decide (x ∉ v1))).length < n :=
        lt_of_le_of_lt (filter_notMem_le hsub) hn
      obtain ⟨b2, v2, r2, h2⟩ :=
        ih v1 r1 (fun x hx => hds x (List.mem_cons_of_mem _ hx)) hn1
      refine ⟨b2, v2, r2, ?_⟩
      rw [dfsDeps, h1]
      exact h2

theorem dfsVisit_total (g : DependencyGraph) (hreg : Registered g) :
    ∀ (fuel : Nat) (pkg : Package) (v r : List Package),
      pkg ∈ keysOf g →
      ((keysOf g).filter (fun x => decide (x ∉ v))).length < fuel →
      ∃ b v2 r2, dfsVisit g.graph fuel pkg v r = .ok (b, v2, r2) := by
  intro fuel
  induction fuel with
  | zero => intro pkg v r _ h; omega
  | succ n ih =>
    intro pkg v r hpkg hn
    by_cases h1 : pkg ∈ r
    · refine ⟨true, v, r, ?_⟩
      rw [dfsVisit, if_pos h1]
    · by_cases h2 : pkg ∈ v
      · refine ⟨false, v, r, ?_⟩
        rw [dfsVisit, if_neg h1, if_pos h2]
      · have hsome : (alistFind g.graph pkg).isSome := by
          rw [alistFind_isSome_iff]
          exact hpkg
        obtain ⟨deps, hfind⟩ := Option.isSome_iff_exists.mp hsome
        have hentry : (pkg, deps) ∈ g.graph := alistFind_eq_some_mem hfind
        have hdeps : ∀ x ∈ deps, x ∈ keysOf g := fun x hx =>
          hreg (pkg, deps) hentry x hx
        have hlt : ((keysOf g).filter
            (fun x => decide (x ∉ pkg :: v))).length < n := by
          have := filter_notMem_cons_lt hpkg h2
          omega
        obtain ⟨b1, v1, r1, hd⟩ :=
          dfsDeps_total (fun a c d ha hb => ih a c d ha hb)
            (fun a c d e f g hh => dfsVisit_mono _ n a c d e f g hh)
            deps (pkg :: v) (pkg :: r) hdeps hlt
        cases b1 with
        | true =>
          refine ⟨true, v1, r1, ?_⟩
          rw [dfsVisit, if_neg h1, if_neg h2, hfind]
          show dfsWrap pkg (dfsDeps (dfsVisit g.graph n) deps
            (pkg :: v) (pkg :: r)) = Except.ok (true, v1, r1)
          rw [hd]
          rfl
        | false =>
          refine ⟨false, v1, removePkg r1 pkg, ?_⟩
          rw [dfsVisit, if_neg h1, if_neg h2, hfind]
          show dfsWrap pkg (dfsDeps (dfsVisit g.graph n) deps
            (pkg :: v) (pkg :: r)) = Except.ok (false, v1, removePkg r1 pkg)
          rw [hd]
          rfl

theorem dfsDeps_sound (g : DependencyGraph)
    {f : Package → List Package → List Package →
      Except DGError (Bool × List Package × List Package)}
    (HfS : ∀ pkg v r v2 r2, f pkg v r = .ok (true, v2, r2) →
      (∀ x ∈ r, Relation.TransGen (EdgeRel g) x pkg) → HasCycle g)
    (HfR : ∀ pkg v r v2 r2, f pkg v r = .ok (false, v2, r2) → r2 = r) :
    ∀ (ds v r : List Package) (v2 r2 : List Package),
      dfsDeps f ds v r = .ok (true, v2, r2) →
      (∀ d ∈ ds, ∀ x ∈ r, Relation.TransGen (EdgeRel g) x d) →
      HasCycle g := by
  intro ds
  induction ds with
  | nil => intro v r v2 r2 h; simp [dfsDeps] at h
  | cons d rest ih =>
    intro v r v2 r2 h hpre
    rw [dfsDeps] at h
    cases hf : f d v r with
    | error e => rw [hf] at h; simp at h
    | ok t =>
      obtain ⟨b1, v1, r1⟩ := t
      rw [hf] at h
      cases b1 with
      | true =>
        exact HfS d v r v1 r1 hf (fun x hx => hpre d (by simp) x hx)
      | false =>
        have hr1 : r1 = r := HfR d v r v1 r1 hf
        subst hr1
        exact ih v1 r1 v2 r2 h
          (fun d2 hd2 x hx => hpre d2 (List.mem_cons_of_mem _ hd2) x hx)

theorem dfsVisit_sound (g : DependencyGraph) :
    ∀ (fuel : Nat) (pkg : Package) (v r : List Package)
      (v2 r2 : List Package),
      dfsVisit g.graph fuel pkg v r = .ok (true, v2, r2) →
      (∀ x ∈ r, Relation.TransGen (EdgeRel g) x pkg) → HasCycle g := by
  intro fuel
  induction fuel with
  | zero => intro pkg v r v2 r2 h; simp [dfsVisit] at h
  | succ n ih =>
    intro pkg v r v2 r2 h hpre
    rw [dfsVisit] at h
    split at h
    · rename_i h1
      exact ⟨pkg, hpre pkg h1⟩
    · split at h
      · simp at h
      · split at h
        · simp at h
        · rename_i deps hfind
          cases hd : dfsDeps (dfsVisit g.graph n) deps (pkg :: v)
              (pkg :: r) with
          | error e => rw [hd] at h; simp [dfsWrap] at h
          | ok t =>
            obtain ⟨b1, v1, r1⟩ := t
            rw [hd] at h
            cases b1 with
            | false => simp [dfsWrap] at h
            | true =>
              refine dfsDeps_sound g
                (fun a c d e f hh hp => ih a c d e f hh hp)
                (fun a c d e f hh => dfsVisit_rec _ n a c d e f hh)
                deps (pkg :: v) (pkg :: r) v1 r1 hd ?_
              intro d2 hd2 x hx
              have hedge : EdgeRel g pkg d2 := ⟨deps, hfind, hd2⟩
              rcases List.mem_cons.mp hx with hx1 | hx1
              · subst hx1
                exact Relation.TransGen.single hedge
              · exact Relation.TransGen.tail (hpre x hx1) hedge

theorem clear_of_deps (g : DependencyGraph) {pkg : Package}
    {deps : List Package} (hfind : alistFind g.graph pkg = some deps)
    (hdeps : ∀ d ∈ deps, ClearOf g d) : ClearOf g pkg := by
  intro y hy hcyc
  rcases Relation.ReflTransGen.cases_head hy with heq | ⟨m, hedge, hrest⟩
  · subst heq
    obtain ⟨c, hc1, hc2⟩ := Relation.TransGen.head'_iff.mp hcyc
    have hm : c ∈ deps := edge_dep_mem hc1 hfind
    exact hdeps c hm pkg hc2 hcyc
  · have hm : m ∈ deps := edge_dep_mem hedge hfind
    exact hdeps m hm y hrest hcyc

theorem dfsDeps_complete (g : DependencyGraph)
    {f : Package → List Package → List Package →
      Except DGError (Bool × List Package × List Package)}
    (HfC : ∀ pkg v r v2 r2, f pkg v r = .ok (false, v2, r2) →
      (∀ x ∈ v, x ∉ r → ClearOf g x) →
      v ⊆ v2 ∧ r2 = r ∧ (∀ x ∈ v2, x ∉ r → ClearOf g x) ∧ pkg ∈ v2 ∧
        (pkg ∉ r → ClearOf g pkg))
    (HfStack : ∀ pkg v r b v2 r2, f pkg v r = .ok (b, v2, r2) →
      pkg ∈ r → b = true) :
    ∀ (ds v r : List Package) (v2 r2 : List Package),
      dfsDeps f ds v r = .ok (false, v2, r2) →
      (∀ x ∈ v, x ∉ r → ClearOf g x) →
      v ⊆ v2 ∧ r2 = r ∧ (∀ x ∈ v2, x ∉ r → ClearOf g x) ∧
        (∀ d ∈ ds, d ∈ v2 ∧ ClearOf g d) := by
  intro ds
  induction ds with
  | nil =>
    intro v r v2 r2 h hinv
    simp only [dfsDeps, Except.ok.injEq, Prod.mk.injEq] at h
    obtain ⟨-, hv, hr⟩ := h
    subst hv
    subst hr
    exact ⟨List.Subset.refl v, rfl, hinv, by simp⟩
  | cons d rest ih =>
    intro v r v2 r2 h hinv
    rw [dfsDeps] at h
    cases hf : f d v r with
    | error e => rw [hf] at h; simp at h
    | ok t =>
      obtain ⟨b1, v1, r1⟩ := t
      rw [hf] at h
      cases b1 with
      | true => simp at h
      | false =>
        have hdr : d ∉ r := by
          intro hdr
          have := HfStack d v r false v1 r1 hf hdr
          simp at this
        obtain ⟨hs1, hr1, hinv1, hdv1, hcl⟩ := HfC d v r v1 r1 hf hinv
        subst hr1
        obtain ⟨hs2, hr2, hinv2, hrest⟩ := ih v1 r1 v2 r2 h hinv1
        refine ⟨hs1.trans hs2, hr2, hinv2, ?_⟩
        intro d2 hd2
        rcases List.mem_cons.mp hd2 with h3 | h3
        · subst h3
          exact ⟨hs2 hdv1, hcl hdr⟩
        · exact hrest d2 h3

theorem dfsVisit_complete (g : DependencyGraph) :
    ∀ (fuel : Nat) (pkg : Package) (v r : List Package)
      (v2 r2 : List Package),
      dfsVisit g.graph fuel pkg v r = .ok (false, v2, r2) →
      (∀ x ∈ v, x ∉ r → ClearOf g x) →
      v ⊆ v2 ∧ r2 = r ∧ (∀ x ∈ v2, x ∉ r → ClearOf g x) ∧ pkg ∈ v2 ∧
        (pkg ∉ r → ClearOf g pkg) := by
  intro fuel
  induction fuel with
  | zero => intro pkg v r v2 r2 h; simp [dfsVisit] at h
  | succ n ih =>
    intro pkg v r v2 r2 h hinv
    rw [dfsVisit] at h
    split at h
    · simp at h
    · rename_i h1
      split at h
      · rename_i h2
        simp only [Except.ok.injEq, Prod.mk.injEq] at h
        obtain ⟨-, hv, hr⟩ := h
        subst hv
        subst hr
        exact ⟨List.Subset.refl v, rfl, hinv, h2, fun h3 => hinv pkg h2 h3⟩
      · rename_i h2
        split at h
        · simp at h
        · rename_i deps hfind
          cases hd : dfsDeps (dfsVisit g.graph n) deps (pkg :: v)
              (pkg :: r) with
          | error e => rw [hd] at h; simp [dfsWrap] at h
          | ok t =>
            obtain ⟨b1, v1, r1⟩ := t
            rw [hd] at h
            cases b1 with
            | true => simp [dfsWrap] at h
            | false =>
              simp only [dfsWrap, Except.ok.injEq, Prod.mk.injEq] at h
              obtain ⟨-, hv, hr⟩ := h
              have hinv0 : ∀ x ∈ pkg :: v, x ∉ pkg :: r → ClearOf g x := by
                intro x hx hxr
                rcases List.mem_cons.mp hx with h3 | h3
                · exact absurd (h3 ▸ List.mem_cons_self pkg r) (h3 ▸ hxr)
                · exact hinv x h3 (fun h4 => hxr (List.mem_cons_of_mem _ h4))
              obtain ⟨hs1, hr1, hinv1, hdepscl⟩ :=
                dfsDeps_complete g
                  (fun a c d e f hh hp => ih a c d e f hh hp)
                  (fun a c d e f k hh hm =>
                    dfsVisit_stack g.graph n a c d e f k hh hm)
                  deps (pkg :: v) (pkg :: r) v1 r1 hd hinv0
              have hclear : ClearOf g pkg :=
                clear_of_deps g hfind (fun d2 hd2 => (hdepscl d2 hd2).2)
              subst hv
              have hr2 : r2 = r := by
                rw [← hr, hr1, removePkg_cons_head]
              subst hr2
              refine ⟨(List.subset_cons_self pkg v).trans hs1, rfl, ?_,
                hs1 (List.mem_cons_self pkg v), fun _ => hclear⟩
              intro x hx hxr
              by_cases hxp : x = pkg
              · exact hxp ▸ hclear
              · refine hinv1 x hx ?_
                intro h4
                rcases List.mem_cons.mp h4 with h5 | h5
                · exact hxp h5
                · exact hxr h5

theorem detectCycleFrom_total (g : DependencyGraph) (hreg : Registered g) :
    ∀ (ks v r : List Package), (∀ k ∈ ks, k ∈ keysOf g) →
      ∃ b, detectCycleFrom g ks v r = .ok b := by
  intro ks
  induction ks with
  | nil => intro v r _; exact ⟨false, rfl⟩
  | cons k rest ih =>
    intro v r hks
    have hk : k ∈ keysOf g := hks k (by simp)
    have hlt : ((keysOf g).filter (fun x => decide (x ∉ v))).length <
        g.graph.length + 1 := by
      have h1 : ((keysOf g).filter (fun x => decide (x ∉ v))).length ≤
          (keysOf g).length := List.length_filter_le _ _
      have h2 : (keysOf g).length = g.graph.length := List.length_map _ _
      omega
    obtain ⟨b1, v1, r1, hv⟩ :=
      dfsVisit_total g hreg (g.graph.length + 1) k v r hk hlt
    cases b1 with
    | true => exact ⟨true, by rw [detectCycleFrom, hv]⟩
    | false =>
      obtain ⟨b2, hb2⟩ :=
        ih v1 r1 (fun x hx => hks x (List.mem_cons_of_mem _ hx))
      refine ⟨b2, ?_⟩
      rw [detectCycleFrom, hv]
      exact hb2

theorem detectCycleFrom_sound (g : DependencyGraph) :
    ∀ (ks v : List Package), detectCycleFrom g ks v [] = .ok true →
      HasCycle g := by
  intro ks
  induction ks with
  | nil => intro v h; simp [detectCycleFrom] at h
  | cons k rest ih =>
    intro v h
    rw [detectCycleFrom] at h
    cases hv : dfsVisit g.graph (g.graph.length + 1) k v [] with
    | error e => rw [hv] at h; simp at h
    | ok t =>
      obtain ⟨b1, v1, r1⟩ := t
      rw [hv] at h
      cases b1 with
      | true => exact dfsVisit_sound g _ k v [] v1 r1 hv (by simp)
      | false =>
        have hr1 : r1 = [] := dfsVisit_rec g.graph _ k v [] v1 r1 hv
        subst hr1
        exact ih v1 h

theorem detectCycleFrom_complete (g : DependencyGraph) :
    ∀ (ks v : List Package), detectCycleFrom g ks v [] = .ok false →
      (∀ x ∈ v, ClearOf g x) →
      ∀ k2 ∈ ks, ClearOf g k2 := by
  intro ks
  induction ks with
  | nil => intro v _ _ k2 hk2; simp at hk2
  | cons k rest ih =>
    intro v h hinv k2 hk2
    rw [detectCycleFrom] at h
    cases hv : dfsVisit g.graph (g.graph.length + 1) k v [] with
    | error e => rw [hv] at h; simp at h
    | ok t =>
      obtain ⟨b1, v1, r1⟩ := t
      rw [hv] at h
      cases b1 with
      | true => simp at h
      | false =>
        obtain ⟨hs, hr, hinv1, hkv, hclk⟩ :=
          dfsVisit_complete g _ k v [] v1 r1 hv (fun x hx _ => hinv x hx)
        have hinv2 : ∀ x ∈ v1, ClearOf g x := fun x hx =>
          hinv1 x hx (by simp)
        rcases List.mem_cons.mp hk2 with h3 | h3
        · subst h3
          exact hclk (by simp)
        · subst hr
          exact ih v1 h hinv2 k2 h3

theorem detectCycleFrom_false_acyclic (g : DependencyGraph)
    (hb : detectCycleFrom g (keysOf g) [] [] = .ok false) : Acyclic g := by
  intro c hc
  have hmem := cycle_node_mem_keys g hc
  have hclear := detectCycleFrom_complete g (keysOf g) [] hb
    (by simp) c hmem
  exact absurd hc (hclear c Relation.ReflTransGen.refl)

/-- Claim C1: on every graph whose dependency targets are all registered,
detectCycle returns false when the graph is acyclic and returns true when
the graph contains a directed cycle. -/
theorem c1_detect_cycle_correct (g : DependencyGraph) (hreg : Registered g) :
    (Acyclic g → detectCycle g = .ok false) ∧
    (HasCycle g → detectCycle g = .ok true) := by
  obtain ⟨b, hb⟩ := detectCycleFrom_total g hreg (keysOf g) [] []
    (fun k hk => hk)
  constructor
  · intro hac
    cases b with
    | false => exact hb
    | true =>
      obtain ⟨c, hc⟩ := detectCycleFrom_sound g (keysOf g) [] hb
      exact absurd hc (hac c)
  · intro hcyc
    cases b with
    | true => exact hb
    | false =>
      obtain ⟨c, hc⟩ := hcyc
      exact absurd hc (detectCycleFrom_false_acyclic g hb c)

theorem gSolo_acyclic : Acyclic gSolo := by
  apply no_edge_acyclic
  rintro p d ⟨deps, hf, hm⟩
  have hmem := alistFind_eq_some_mem hf
  have hg : gSolo.graph = [(pkgA, [])] := rfl
  rw [hg] at hmem
  simp at hmem
  rw [hmem.2] at hm
  simp at hm

theorem c1_detect_cycle_correct_witness :
    detectCycle gSolo = .ok false ∧ detectCycle gSelf = .ok true := by
  constructor
  · exact (c1_detect_cycle_correct gSolo (by unfold Registered; decide)).1
      gSolo_acyclic
  · exact (c1_detect_cycle_correct gSelf (by unfold Registered; decide)).2
      ⟨pkgA, Relation.TransGen.single ⟨[pkgA], rfl, by simp⟩⟩

theorem occ_eq_zero_iff {d : Package} {l : List Package} :
    occ d l = 0 ↔ d ∉ l := by
  induction l with
  | nil => simp [occ]
  | cons x xs ih =>
    by_cases hx : x = d
    · subst hx
      simp [occ]
    · simp [occ, hx, ih, Ne.symm hx]

theorem occ_nodup_mem {d : Package} {l : List Package} (hn : l.Nodup)
    (hm : d ∈ l) : occ d l = 1 := by
  induction l with
  | nil => simp at hm
  | cons x xs ih =>
    rw [List.nodup_cons] at hn
    rcases List.mem_cons.mp hm with h1 | h1
    · subst h1
      have : occ d xs = 0 := occ_eq_zero_iff.mpr hn.1
      simp [occ, this]
    · have hx : x ≠ d := by
        intro h2
        subst h2
        exact hn.1 h1
      simp [occ, hx, ih hn.2 h1]

theorem sortedCntEdges_nil_sorted (d : Package)
    (l : List (Package × List Package)) : sortedCntEdges [] d l = 0 := by
  induction l with
  | nil => rfl
  | cons e rest ih => simp [sortedCntEdges, ih]

theorem sortedCntEdges_le (s : List Package) (d : Package)
    (l : List (Package × List Package)) :
    sortedCntEdges s d l ≤ cntEdges d l := by
  induction l with
  | nil => simp [sortedCntEdges, cntEdges]
  | cons e rest ih =>
    by_cases hf : e.1 ∈ s <;> simp [sortedCntEdges, cntEdges, hf] <;> omega

theorem sortedCntEdges_congr {s1 s2 : List Package} {d : Package}
    {l : List (Package × List Package)}
    (h : ∀ e ∈ l, (e.1 ∈ s1 ↔ e.1 ∈ s2)) :
    sortedCntEdges s1 d l = sortedCntEdges s2 d l := by
  induction l with
  | nil => rfl
  | cons e rest ih =>
    have hrest := ih (fun e2 he2 => h e2 (List.mem_cons_of_mem _ he2))
    by_cases hf : e.1 ∈ s1
    · have hf2 : e.1 ∈ s2 := (h e (by simp)).mp hf
      simp [sortedCntEdges, hf, hf2, hrest]
    · have hf2 : e.1 ∉ s2 := fun h2 => hf ((h e (by simp)).mpr h2)
      simp [sortedCntEdges, hf, hf2, hrest]

theorem sortedCntEdges_append_single {l : List (Package × List Package)}
    (hn : (l.map Prod.fst).Nodup) {pkg : Package} {deps : List Package}
    (hmem : (pkg, deps) ∈ l) {s : List Package} (hns : pkg ∉ s)
    (d : Package) :
    sortedCntEdges (s ++ [pkg]) d l = sortedCntEdges s d l + occ d deps := by
  induction l with
  | nil => simp at hmem
  | cons e0 rest ih =>
    rw [List.map_cons, List.nodup_cons] at hn
    rcases List.mem_cons.mp hmem with h1 | h1
    · subst h1
      have hflag : pkg ∈ s ++ [pkg] := List.mem_append_right _ (by simp)
      have hrest : sortedCntEdges (s ++ [pkg]) d rest =
          sortedCntEdges s d rest := by
        apply sortedCntEdges_congr
        intro e2 he2
        have hne : e2.1 ≠ pkg := by
          intro h2
          exact hn.1 (h2 ▸ List.mem_map.mpr ⟨e2, he2, rfl⟩)
        constructor
        · intro h2
          rcases List.mem_append.mp h2 with h3 | h3
          · exact h3
          · simp at h3
            exact absurd h3 hne
        · intro h2
          exact List.mem_append_left _ h2
      simp [sortedCntEdges, hflag, hns, hrest]
      omega
    · have hne : e0.1 ≠ pkg := by
        intro h2
        exact hn.1 (h2 ▸ List.mem_map.mpr ⟨(pkg, deps), h1, rfl⟩)
      have hflag : (e0.1 ∈ s ++ [pkg]) ↔ (e0.1 ∈ s) := by
        constructor
        · intro h2
          rcases List.mem_append.mp h2 with h3 | h3
          · exact h3
          · simp at h3
            exact absurd h3 hne
        · intro h2
          exact List.mem_append_left _ h2
      have hrest := ih hn.2 h1
      by_cases hf : e0.1 ∈ s
      · simp [sortedCntEdges, hf, hflag.mpr hf, hrest]
        omega
      · have hf2 : e0.1 ∉ s ++ [pkg] := fun h2 => hf (hflag.mp h2)
        simp [sortedCntEdges, hf, hf2, hrest]

theorem sortedCntEdges_entry_out_le {l : List (Package × List Package)}
    {e : Package × List Package} (hmem : e ∈ l) {s : List Package}
    (hns : e.1 ∉ s) (d : Package) :
    sortedCntEdges s d l + occ d e.2 ≤ cntEdges d l := by
  induction l with
  | nil => simp at hmem
  | cons e0 rest ih =>
    rcases List.mem_cons.mp hmem with h1 | h1
    · subst h1
      have hle := sortedCntEdges_le s d rest
      simp [sortedCntEdges, cntEdges, hns]
      omega
    · have hrec := ih h1
      by_cases hf : e0.1 ∈ s <;> simp [sortedCntEdges, cntEdges, hf] <;>
        omega

theorem sortedCntEdges_lt_exists {s : List Package} {d : Package}
    {l : List (Package × List Package)}
    (h : sortedCntEdges s d l < cntEdges d l) :
    ∃ e ∈ l, e.1 ∉ s ∧ d ∈ e.2 := by
  induction l with
  | nil => simp [sortedCntEdges, cntEdges] at h
  | cons e0 rest ih =>
    by_cases hf : e0.1 ∈ s
    · rw [sortedCntEdges, cntEdges] at h
      simp only [hf, if_pos] at h
      have h2 : sortedCntEdges s d rest < cntEdges d rest := by omega
      obtain ⟨e2, he2, hp⟩ := ih h2
      exact ⟨e2, List.mem_cons_of_mem _ he2, hp⟩
    · by_cases hd : d ∈ e0.2
      · exact ⟨e0, by simp, hf, hd⟩
      · have hocc : occ d e0.2 = 0 := occ_eq_zero_iff.mpr hd
        rw [sortedCntEdges, cntEdges] at h
        simp only [hf, if_neg, hocc] at h
        have h2 : sortedCntEdges s d rest < cntEdges d rest := by omega
        obtain ⟨e2, he2, hp⟩ := ih h2
        exact ⟨e2, List.mem_cons_of_mem _ he2, hp⟩

theorem sortedCntEdges_all_in {s : List Package} {d : Package}
    {l : List (Package × List Package)} (h : ∀ e ∈ l, e.1 ∈ s) :
    sortedCntEdges s d l = cntEdges d l := by
  induction l with
  | nil => rfl
  | cons e0 rest ih =>
    have hf : e0.1 ∈ s := h e0 (by simp)
    simp [sortedCntEdges, cntEdges, hf,
      ih (fun e2 he2 => h e2 (List.mem_cons_of_mem _ he2))]

theorem posIn_append_of_mem {l : List Package} {x : Package} (h : x ∈ l)
    (l2 : List Package) : posIn (l ++ l2) x = posIn l x := by
  induction l with
  | nil => simp at h
  | cons y ys ih =>
    by_cases hy : y = x
    · simp [posIn, hy]
    · have hx : x ∈ ys := by
        rcases List.mem_cons.mp h with h1 | h1
        · exact absurd h1.symm hy
        · exact h1
      simp [posIn, hy, ih hx]

theorem posIn_append_not_mem {l : List Package} {x : Package} (h : x ∉ l)
    (l2 : List Package) : posIn (l ++ l2) x = l.length + posIn l2 x := by
  induction l with
  | nil => simp [posIn]
  | cons y ys ih =>
    have hy : y ≠ x := by
      intro h2
      exact h (h2 ▸ List.mem_cons_self y ys)
    have hx : x ∉ ys := fun h2 => h (List.mem_cons_of_mem _ h2)
    simp [posIn, hy, ih hx]
    omega

theorem posIn_lt_length {l : List Package} {x : Package} (h : x ∈ l) :
    posIn l x < l.length := by
  induction l with
  | nil => simp at h
  | cons y ys ih =>
    by_cases hy : y = x
    · simp [posIn, hy]
    · have hx : x ∈ ys := by
        rcases List.mem_cons.mp h with h1 | h1
        · exact absurd h1.symm hy
        · exact h1
      simp [posIn, hy]
      exact ih hx

theorem processDeps_total : ∀ (ds q : List Package)
    (i : List (Package × Int)),
    (∀ x ∈ ds, (alistFind i x).isSome) →
    ∃ q2 i2, processDeps ds q i = .ok (q2, i2) := by
  intro ds
  induction ds with
  | nil => intro q i _; exact ⟨q, i, rfl⟩
  | cons d rest ih =>
    intro q i h
    obtain ⟨k, hk⟩ := Option.isSome_iff_exists.mp (h d (by simp))
    have h2 : ∀ x ∈ rest, (alistFind (alistSet i d (k - 1)) x).isSome := by
      intro x hx
      by_cases hxd : x = d
      · subst hxd
        rw [alistFind_set_self]
        rfl
      · rw [alistFind_set_ne i hxd (k - 1)]
        exact h x (List.mem_cons_of_mem _ hx)
    obtain ⟨q2, i2, hrec⟩ :=
      ih (if k - 1 = 0 then q ++ [d] else q) (alistSet i d (k - 1)) h2
    refine ⟨q2, i2, ?_⟩
    rw [processDeps, hk]
    exact hrec

theorem processDeps_find : ∀ (ds q : List Package)
    (i : List (Package × Int)) (q2 : List Package)
    (i2 : List (Package × Int)),
    processDeps ds q i = .ok (q2, i2) →
    ∀ x, alistFind i2 x =
      Option.map (fun k => k - (occ x ds : Int)) (alistFind i x) := by
  intro ds
  induction ds with
  | nil =>
    intro q i q2 i2 h x
    simp only [processDeps, Except.ok.injEq, Prod.mk.injEq] at h
    obtain ⟨-, hi⟩ := h
    subst hi
    cases hfx : alistFind i x <;> simp [occ]
  | cons d rest ih =>
    intro q i q2 i2 h x
    rw [processDeps] at h
    cases hk : alistFind i d with
    | none => rw [hk] at h; simp at h
    | some k =>
      rw [hk] at h
      have h' : processDeps rest (if k - 1 = 0 then q ++ [d] else q)
          (alistSet i d (k - 1)) = .ok (q2, i2) := h
      have hv := ih _ _ _ _ h' x
      by_cases hxd : x = d
      · subst hxd
        rw [hv, alistFind_set_self, hk]
        simp [occ]
        omega
      · rw [hv, alistFind_set_ne i hxd (k - 1)]
        have hocc : occ x (d :: rest) = occ x rest := by
          simp [occ, Ne.symm hxd]
        rw [hocc]

theorem processDeps_queue : ∀ (ds q : List Package)
    (i : List (Package × Int)) (q2 : List Package)
    (i2 : List (Package × Int)), ds.Nodup →
    processDeps ds q i = .ok (q2, i2) →
    q2 = q ++ ds.filter (fun x => decide (alistFind i x = some 1)) := by
  intro ds
  induction ds with
  | nil =>
    intro q i q2 i2 _ h
    simp only [processDeps, Except.ok.injEq, Prod.mk.injEq] at h
    simp [← h.1]
  | cons d rest ih =>
    intro q i q2 i2 hn h
    rw [List.nodup_cons] at hn
    rw [processDeps] at h
    cases hk : alistFind i d with
    | none => rw [hk] at h; simp at h
    | some k =>
      rw [hk] at h
      have h' : processDeps rest (if k - 1 = 0 then q ++ [d] else q)
          (alistSet i d (k - 1)) = .ok (q2, i2) := h
      have hq2 := ih _ _ _ _ hn.2 h'
      have hflt : rest.filter
          (fun x => decide (alistFind (alistSet i d (k - 1)) x = some 1)) =
          rest.filter (fun x => decide (alistFind i x = some 1)) := by
        apply List.filter_congr
        intro x hx
        have hne : x ≠ d := fun h2 => hn.1 (h2 ▸ hx)
        rw [alistFind_set_ne i hne (k - 1)]
      rw [hflt] at hq2
      by_cases hk1 : k = 1
      · have hz : k - 1 = 0 := by omega
        have hpred : decide (alistFind i d = some 1) = true := by
          rw [hk, hk1]
          simp
        rw [hq2]
        simp only [hz, if_pos, List.filter_cons, hpred, if_true]
        simp
      · have hz : ¬ (k - 1 = 0) := by omega
        have hpred : decide (alistFind i d = some 1) = false := by
          rw [hk]
          simp
          omega
        rw [hq2]
        simp only [hz, if_neg, List.filter_cons, hpred]
        simp

theorem seedQueue_eq : ∀ (l : List (Package × List Package))
    (i : List (Package × Int)),
    (∀ e ∈ l, (alistFind i e.1).isSome) →
    seedQueue l i = .ok ((l.map Prod.fst).filter
      (fun p => decide (alistFind i p = some 0))) := by
  intro l
  induction l with
  | nil => intro i _; rfl
  | cons e rest ih =>
    intro i h
    obtain ⟨p, deps⟩ := e
    obtain ⟨k, hk⟩ := Option.isSome_iff_exists.mp (h (p, deps) (by simp))
    have hrec := ih i (fun e2 he2 => h e2 (List.mem_cons_of_mem _ he2))
    rw [seedQueue, hk, hrec]
    by_cases hk0 : k = 0
    · subst hk0
      have hpred : decide (alistFind i p = some 0) = true := by
        rw [hk]
        simp
      simp only [List.map_cons, List.filter_cons, hpred, if_true]
    · have hpred : decide (alistFind i p = some 0) = false := by
        rw [hk]
        simp
        omega
      simp only [List.map_cons, List.filter_cons, hpred]
      simp only [Bool.false_eq_true, if_false]
      simp [hk0]

theorem topoLoop_cons_eq (g : DependencyGraph) (fuel : Nat) (pkg : Package)
    (rest sorted : List Package) (indeg : List (Package × Int))
    (deps q2 : List Package) (i2 : List (Package × Int))
    (hfind : alistFind g.graph pkg = some deps)
    (hpd : processDeps deps rest indeg = .ok (q2, i2)) :
    topoLoop g (fuel + 1) (pkg :: rest) sorted indeg =
      topoLoop g fuel q2 (sorted ++ [pkg]) i2 := by
  rw [topoLoop, hfind]
  show (match processDeps deps rest indeg with
    | Except.error e => Except.error e
    | Except.ok (queue2, indeg2) =>
      topoLoop g fuel queue2 (sorted ++ [pkg]) indeg2) =
    topoLoop g fuel q2 (sorted ++ [pkg]) i2
  rw [hpd]

theorem topologicalSort_eq (g : DependencyGraph) (q0 : List Package)
    (hseed : seedQueue g.graph g.inDegree = .ok q0) :
    topologicalSort g =
      topoLoop g (g.graph.length + 1) q0 [] g.inDegree := by
  rw [topologicalSort, hseed]

theorem topoLoop_run (g : DependencyGraph) (hWF : WFGraph g) :
    ∀ (fuel : Nat) (queue sorted : List Package)
      (indeg : List (Package × Int)),
      KahnInv g queue sorted indeg →
      (keysOf g).length < fuel + sorted.length →
      ∃ sorted2 indeg2,
        topoLoop g fuel queue sorted indeg = .ok (sorted2, indeg2) ∧
        KahnInv g [] sorted2 indeg2 ∧
        ∃ growth, sorted2 = sorted ++ growth := by
  obtain ⟨hNK, hND, hReg⟩ := hWF
  intro fuel
  induction fuel with
  | zero =>
    intro queue sorted indeg hinv hlen
    obtain ⟨hn, hmem, hstored, hiff, hord⟩ := hinv
    cases queue with
    | nil =>
      exact ⟨sorted, indeg, rfl, ⟨hn, hmem, hstored, hiff, hord⟩,
        [], by simp⟩
    | cons p rest =>
      exfalso
      have hlen2 : (sorted ++ p :: rest).length ≤ (keysOf g).length :=
        (List.subperm_of_subset hn (fun x hx => hmem x hx)).length_le
      simp [List.length_append] at hlen2
      omega
  | succ n ih =>
    intro queue sorted indeg hinv hlen
    obtain ⟨hn, hmem, hstored, hiff, hord⟩ := hinv
    cases queue with
    | nil =>
      exact ⟨sorted, indeg, rfl, ⟨hn, hmem, hstored, hiff, hord⟩,
        [], by simp⟩
    | cons pkg rest =>
      have hpkgmem : pkg ∈ sorted ++ pkg :: rest :=
        List.mem_append_right _ (by simp)
      have hpkgK : pkg ∈ keysOf g := hmem pkg hpkgmem
      have hpkgns : pkg ∉ sorted := fun h2 =>
        (List.disjoint_of_nodup_append hn) h2 (by simp)
      obtain ⟨deps, hfind⟩ := Option.isSome_iff_exists.mp
        (alistFind_isSome_iff.mpr hpkgK)
      have hentry : (pkg, deps) ∈ g.graph := alistFind_eq_some_mem hfind
      have hdepsK : ∀ x ∈ deps, x ∈ keysOf g := fun x hx =>
        hReg _ hentry x hx
      have hdepsN : deps.Nodup := hND _ hentry
      have hindeps : ∀ x ∈ deps, (alistFind indeg x).isSome := by
        intro x hx
        rw [hstored x (hdepsK x hx)]
        rfl
      obtain ⟨q2, i2, hpd⟩ := processDeps_total deps rest indeg hindeps
      have hval := processDeps_find deps rest indeg q2 i2 hpd
      have hqueue := processDeps_queue deps rest indeg q2 i2 hdepsN hpd
      have hSCadd : ∀ d, sortedCnt g (sorted ++ [pkg]) d =
          sortedCnt g sorted d + occ d deps := fun d =>
        sortedCntEdges_append_single hNK hentry hpkgns d
      -- a dependency of pkg cannot already satisfy count equality
      have hdep_lt : ∀ d ∈ deps,
          sortedCnt g sorted d + 1 ≤ cnt g d := by
        intro d hd
        have h1 : sortedCntEdges sorted d g.graph + occ d deps ≤
            cntEdges d g.graph := sortedCntEdges_entry_out_le hentry hpkgns d
        have h2 : 1 ≤ occ d deps := by
          rcases Nat.eq_zero_or_pos (occ d deps) with h3 | h3
          · exact absurd hd (occ_eq_zero_iff.mp h3)
          · exact h3
        unfold sortedCnt cnt
        omega
      have hdep_notold : ∀ d ∈ deps, d ∉ sorted ++ pkg :: rest := by
        intro d hd h2
        have h3 := (hiff d (hdepsK d hd)).mp h2
        have h4 := hdep_lt d hd
        omega
      -- the pushed packages
      have hpush_mem : ∀ x,
          x ∈ deps.filter (fun y => decide (alistFind indeg y = some 1)) ↔
          x ∈ deps ∧ (cnt g x : Int) - (sortedCnt g sorted x : Int) = 1 := by
        intro x
        rw [List.mem_filter]
        constructor
        · rintro ⟨hx, hdec⟩
          have h2 : alistFind indeg x = some 1 := by simpa using hdec
          rw [hstored x (hdepsK x hx)] at h2
          have h3 : (cnt g x : Int) - (sortedCnt g sorted x : Int) = 1 := by
            have h4 := Option.some.inj h2
            omega
          exact ⟨hx, h3⟩
        · rintro ⟨hx, heq⟩
          refine ⟨hx, ?_⟩
          rw [hstored x (hdepsK x hx), heq]
          simp
      -- new member list equals old members plus pushed
      have hq2mem : ∀ x, x ∈ (sorted ++ [pkg]) ++ q2 ↔
          x ∈ sorted ++ pkg :: rest ∨
          x ∈ deps.filter (fun y => decide (alistFind indeg y = some 1)) := by
        intro x
        rw [hqueue]
        simp [List.mem_append, List.mem_cons]
        tauto
      -- new invariant
      have hpushedK : ∀ x ∈ deps.filter
          (fun y => decide (alistFind indeg y = some 1)), x ∈ keysOf g := by
        intro x hx
        exact hdepsK x ((hpush_mem x).mp hx).1
      have hinv2 : KahnInv g q2 (sorted ++ [pkg]) i2 := by
        refine ⟨?_, ?_, ?_, ?_, ?_⟩
        · -- Nodup
          rw [hqueue]
          have heq : (sorted ++ [pkg]) ++ (rest ++ deps.filter
              (fun y => decide (alistFind indeg y = some 1))) =
              (sorted ++ pkg :: rest) ++ deps.filter
                (fun y => decide (alistFind indeg y = some 1)) := by
            simp
          rw [heq]
          refine List.Nodup.append hn
            (hdepsN.filter _) ?_
          intro x hx1 hx2
          exact hdep_notold x ((hpush_mem x).mp hx2).1 hx1
        · intro x hx
          rcases (hq2mem x).mp hx with h2 | h2
          · exact hmem x h2
          · exact hpushedK x h2
        · intro d hd
          rw [hval d, hstored d hd]
          have hmap : Option.map (fun k => k - (occ d deps : Int))
              (some ((cnt g d : Int) - (sortedCnt g sorted d : Int))) =
              some (((cnt g d : Int) - (sortedCnt g sorted d : Int)) -
                (occ d deps : Int)) := rfl
          rw [hmap]
          have := hSCadd d
          congr 1
          omega
        · intro d hd
          rw [hq2mem d]
          by_cases hdm : d ∈ deps
          · have hocc1 : occ d deps = 1 := occ_nodup_mem hdepsN hdm
            have hlt := hdep_lt d hdm
            have hSC := hSCadd d
            constructor
            · intro h2
              rcases h2 with h2 | h2
              · exact absurd h2 (hdep_notold d hdm)
              · have h3 := ((hpush_mem d).mp h2).2
                omega
            · intro h2
              right
              rw [hpush_mem d]
              refine ⟨hdm, ?_⟩
              omega
          · have hocc0 : occ d deps = 0 := occ_eq_zero_iff.mpr hdm
            have hSC := hSCadd d
            constructor
            · intro h2
              rcases h2 with h2 | h2
              · have h3 := (hiff d hd).mp h2
                omega
              · exact absurd ((hpush_mem d).mp h2).1 hdm
            · intro h2
              left
              refine (hiff d hd).mpr ?_
              omega
        · -- OrdProp
          intro p2 d2 hedge hd2
          rcases List.mem_append.mp hd2 with h2 | h2
          · obtain ⟨hp2, hlt⟩ := hord p2 d2 hedge h2
            refine ⟨List.mem_append_left _ hp2, ?_⟩
            rw [posIn_append_of_mem hp2, posIn_append_of_mem h2]
            exact hlt
          · simp at h2
            subst h2
            obtain ⟨deps2, hf2, hm2⟩ := hedge
            have hentry2 : (p2, deps2) ∈ g.graph := alistFind_eq_some_mem hf2
            have hSCpkg : sortedCnt g sorted d2 = cnt g d2 :=
              (hiff d2 hpkgK).mp hpkgmem
            have hp2s : p2 ∈ sorted := by
              by_contra hp2
              have h3 : sortedCntEdges sorted d2 g.graph + occ d2 deps2 ≤
                  cntEdges d2 g.graph :=
                sortedCntEdges_entry_out_le hentry2 hp2 d2
              have h4 : 1 ≤ occ d2 deps2 := by
                rcases Nat.eq_zero_or_pos (occ d2 deps2) with h5 | h5
                · exact absurd hm2 (occ_eq_zero_iff.mp h5)
                · exact h5
              unfold sortedCnt cnt at hSCpkg
              omega
            refine ⟨List.mem_append_left _ hp2s, ?_⟩
            rw [posIn_append_of_mem hp2s, posIn_append_not_mem hpkgns]
            have := posIn_lt_length hp2s
            simp [posIn]
            omega
      have hlen2 : (keysOf g).length < n + (sorted ++ [pkg]).length := by
        simp [List.length_append]
        omega
      obtain ⟨sorted2, indeg2, hrun, hinvf, growth, hgrow⟩ :=
        ih q2 (sorted ++ [pkg]) i2 hinv2 hlen2
      refine ⟨sorted2, indeg2, ?_, hinvf, pkg :: growth, ?_⟩
      · rw [topoLoop_cons_eq g n pkg rest sorted indeg deps q2 i2 hfind hpd]
        exact hrun
      · rw [hgrow]
        simp

theorem topologicalSort_run (g : DependencyGraph) (hWF : WFGraph g)
    (hfresh : FreshDeg g) :
    ∃ sorted indeg2, topologicalSort g = .ok (sorted, indeg2) ∧
      KahnInv g [] sorted indeg2 := by
  obtain ⟨hNK, hND, hReg⟩ := hWF
  have hseedsome : ∀ e ∈ g.graph, (alistFind g.inDegree e.1).isSome := by
    intro e he
    rw [hfresh e.1 (List.mem_map.mpr ⟨e, he, rfl⟩)]
    rfl
  have hseed := seedQueue_eq g.graph g.inDegree hseedsome
  have hinv0 : KahnInv g ((g.graph.map Prod.fst).filter
      (fun p => decide (alistFind g.inDegree p = some 0))) [] g.inDegree := by
    refine ⟨?_, ?_, ?_, ?_, ?_⟩
    · simpa using hNK.filter _
    · intro x hx
      simp only [List.nil_append] at hx
      exact (List.mem_filter.mp hx).1
    · intro d hd
      rw [hfresh d hd]
      have h0 : sortedCnt g [] d = 0 := sortedCntEdges_nil_sorted d g.graph
      rw [h0]
      simp
    · intro d hd
      have h0 : sortedCnt g [] d = 0 := sortedCntEdges_nil_sorted d g.graph
      rw [h0]
      simp only [List.nil_append]
      constructor
      · intro h2
        have h4 : alistFind g.inDegree d = some 0 := by
          simpa using (List.mem_filter.mp h2).2
        rw [hfresh d hd] at h4
        have h5 := Option.some.inj h4
        omega
      · intro h2
        refine List.mem_filter.mpr ⟨hd, ?_⟩
        rw [hfresh d hd]
        simp
        omega
    · intro p d he hd
      simp at hd
  obtain ⟨sorted, indeg2, hrun, hinvf, -, -⟩ :=
    topoLoop_run g ⟨hNK, hND, hReg⟩ (g.graph.length + 1)
      ((g.graph.map Prod.fst).filter
        (fun p => decide (alistFind g.inDegree p = some 0))) [] g.inDegree
      hinv0
      (by
        have h2 : (keysOf g).length = g.graph.length := List.length_map _ _
        omega)
  refine ⟨sorted, indeg2, ?_, hinvf⟩
  rw [topologicalSort_eq g _ hseed]
  exact hrun

theorem kahnInv_complete (g : DependencyGraph) (hNK : NodupKeys g)
    {sorted : List Package} {indeg : List (Package × Int)}
    (hinv : KahnInv g [] sorted indeg) (hac : Acyclic g) :
    ∀ k ∈ keysOf g, k ∈ sorted := by
  classical
  obtain ⟨hn, hmem, hstored, hiff, hord⟩ := hinv
  have hiff2 : ∀ d ∈ keysOf g, (d ∈ sorted ↔
      sortedCnt g sorted d = cnt g d) := by
    intro d hd
    have := hiff d hd
    simpa using this
  by_contra hcon
  push_neg at hcon
  obtain ⟨k0, hk0K, hk0n⟩ := hcon
  have hS0 : k0 ∈ (keysOf g).toFinset.filter (fun x => x ∉ sorted) :=
    Finset.mem_filter.mpr ⟨List.mem_toFinset.mpr hk0K, hk0n⟩
  have hstep : ∀ x ∈ (keysOf g).toFinset.filter (fun x => x ∉ sorted),
      ∃ y ∈ (keysOf g).toFinset.filter (fun x => x ∉ sorted),
        EdgeRel g y x := by
    intro x hx
    obtain ⟨hxK2, hxn⟩ := Finset.mem_filter.mp hx
    have hxK := List.mem_toFinset.mp hxK2
    have hne : sortedCnt g sorted x ≠ cnt g x := by
      intro h2
      exact hxn ((hiff2 x hxK).mpr h2)
    have hlt : sortedCnt g sorted x < cnt g x :=
      lt_of_le_of_ne (sortedCntEdges_le sorted x g.graph) hne
    obtain ⟨e, he, hens, hxd⟩ := sortedCntEdges_lt_exists hlt
    refine ⟨e.1, Finset.mem_filter.mpr
      ⟨List.mem_toFinset.mpr (List.mem_map.mpr ⟨e, he, rfl⟩), hens⟩, ?_⟩
    exact ⟨e.2, alistFind_of_mem_nodup hNK (by simpa using he), hxd⟩
  have hstep2 : ∀ x, ∃ y,
      x ∈ (keysOf g).toFinset.filter (fun x => x ∉ sorted) →
      (y ∈ (keysOf g).toFinset.filter (fun x => x ∉ sorted) ∧
        EdgeRel g y x) := by
    intro x
    by_cases hx : x ∈ (keysOf g).toFinset.filter (fun x => x ∉ sorted)
    · obtain ⟨y, hy1, hy2⟩ := hstep x hx
      exact ⟨y, fun _ => ⟨hy1, hy2⟩⟩
    · exact ⟨k0, fun h2 => absurd h2 hx⟩
  choose f hf using hstep2
  have hseqS : ∀ n, f^[n] k0 ∈
      (keysOf g).toFinset.filter (fun x => x ∉ sorted) := by
    intro n
    induction n with
    | zero => exact hS0
    | succ m ihm =>
      rw [Function.iterate_succ_apply']
      exact (hf (f^[m] k0) ihm).1
  have hseqE : ∀ n, EdgeRel g (f^[n + 1] k0) (f^[n] k0) := by
    intro n
    rw [Function.iterate_succ_apply']
    exact (hf (f^[n] k0) (hseqS n)).2
  have hchain : ∀ a b : Nat, a < b →
      Relation.TransGen (EdgeRel g) (f^[b] k0) (f^[a] k0) := by
    intro a b
    induction b with
    | zero => omega
    | succ m ihm =>
      intro hab
      rcases Nat.lt_succ_iff_lt_or_eq.mp hab with h2 | h2
      · exact Relation.TransGen.head (hseqE m) (ihm h2)
      · subst h2
        exact Relation.TransGen.single (hseqE a)
  obtain ⟨i, hi, j, hj, hij, hfeq⟩ :=
    Finset.exists_ne_map_eq_of_card_lt_of_maps_to
      (s := Finset.range
        (((keysOf g).toFinset.filter (fun x => x ∉ sorted)).card + 1))
      (by simp) (fun n _ => hseqS n)
  rcases lt_or_gt_of_ne hij with h2 | h2
  · exact absurd (hfeq ▸ hchain i j h2) (hac _)
  · exact absurd (hfeq ▸ hchain j i h2) (hac _)

theorem kahnInv_sound (g : DependencyGraph) (hReg : Registered g)
    {sorted : List Package} (hord : OrdProp g sorted)
    (hall : ∀ k ∈ keysOf g, k ∈ sorted) : Acyclic g := by
  have htarget : ∀ a b, EdgeRel g a b → b ∈ keysOf g := by
    rintro a b ⟨deps, hf, hm⟩
    exact hReg _ (alistFind_eq_some_mem hf) b hm
  have hTG : ∀ a b, Relation.TransGen (EdgeRel g) a b →
      posIn sorted a < posIn sorted b := by
    intro a b h
    induction h with
    | single h2 => exact (hord _ _ h2 (hall _ (htarget _ _ h2))).2
    | tail h2 h3 ih =>
      exact ih.trans (hord _ _ h3 (hall _ (htarget _ _ h3))).2
  intro c hc
  exact absurd (hTG c c hc) (lt_irrefl _)

theorem acyclic_of_rank (g : DependencyGraph) (rank : Package → Nat)
    (h : ∀ p d, EdgeRel g p d → rank p < rank d) : Acyclic g := by
  have hTG : ∀ a b, Relation.TransGen (EdgeRel g) a b → rank a < rank b := by
    intro a b h1
    induction h1 with
    | single h2 => exact h _ _ h2
    | tail h2 h3 ih => exact ih.trans (h _ _ h3)
  intro c hc
  exact absurd (hTG c c hc) (lt_irrefl _)

theorem gChain_acyclic : Acyclic gChain := by
  apply acyclic_of_rank gChain (fun p => if p = pkgB then 1 else 0)
  rintro p d ⟨deps, hf, hm⟩
  have hmem := alistFind_eq_some_mem hf
  have hg : gChain.graph = [(pkgA, [pkgB]), (pkgB, [])] := rfl
  rw [hg] at hmem
  simp at hmem
  rcases hmem with ⟨hp, hdeps⟩ | ⟨hp, hdeps⟩
  · subst hp
    rw [hdeps] at hm
    simp at hm
    subst hm
    decide
  · rw [hdeps] at hm
    simp at hm

/-- Claim C2: on every acyclic well-formed graph with freshly computed
in-degrees, topologicalSort succeeds and its output respects one direction
convention for all edges: for every edge (p, d), the dependent p appears
strictly before its dependency d (the order starts at packages with no
dependents, which have in-degree 0). -/
theorem c2_topo_edge_order (g : DependencyGraph) (hWF : WFGraph g)
    (hfresh : FreshDeg g) (hac : Acyclic g) :
    ∃ sorted indeg2, topologicalSort g = .ok (sorted, indeg2) ∧
      ∀ p d, EdgeRel g p d →
        p ∈ sorted ∧ d ∈ sorted ∧ posIn sorted p < posIn sorted d := by
  obtain ⟨sorted, indeg2, hrun, hinv⟩ := topologicalSort_run g hWF hfresh
  have hall := kahnInv_complete g hWF.1 hinv hac
  obtain ⟨hn, hmem, hstored, hiff, hord⟩ := hinv
  refine ⟨sorted, indeg2, hrun, ?_⟩
  intro p d hedge
  have hdK : d ∈ keysOf g := by
    obtain ⟨deps, hf, hm⟩ := hedge
    exact hWF.2.2 _ (alistFind_eq_some_mem hf) d hm
  have hds := hall d hdK
  obtain ⟨hp, hlt⟩ := hord p d hedge hds
  exact ⟨hp, hds, hlt⟩

theorem c2_topo_edge_order_witness :
    ∃ sorted indeg2, topologicalSort gChain = .ok (sorted, indeg2) ∧
      ∀ p d, EdgeRel gChain p d →
        p ∈ sorted ∧ d ∈ sorted ∧ posIn sorted p < posIn sorted d :=
  c2_topo_edge_order gChain
    (by unfold WFGraph NodupKeys NodupDeps Registered; decide)
    (by unfold FreshDeg; decide) gChain_acyclic

/-- Claim C3: on every well-formed graph with freshly computed in-degrees,
the two cycle signals agree: detectCycle returns false exactly when the
number of packages output by topologicalSort equals the package count, and
when detectCycle returns true the produced order is strictly shorter. -/
theorem c3_cycle_signals_agree (g : DependencyGraph) (hWF : WFGraph g)
    (hfresh : FreshDeg g) :
    ∃ sorted indeg2 b, topologicalSort g = .ok (sorted, indeg2) ∧
      detectCycle g = .ok b ∧
      (b = false ↔ sorted.length = g.graph.length) ∧
      (b = true → sorted.length < g.graph.length) := by
  obtain ⟨sorted, indeg2, hrun, hinv⟩ := topologicalSort_run g hWF hfresh
  obtain ⟨bb, hb⟩ := detectCycleFrom_total g hWF.2.2 (keysOf g) [] []
    (fun k hk => hk)
  have hkeyslen : (keysOf g).length = g.graph.length := List.length_map _ _
  obtain ⟨hn, hmem, hstored, hiff, hord⟩ := hinv
  have hsn : sorted.Nodup := by simpa using hn
  have hsub : sorted ⊆ keysOf g := fun x hx => hmem x (by simpa using hx)
  have hle : sorted.length ≤ (keysOf g).length :=
    (List.subperm_of_subset hsn hsub).length_le
  have hstrict : bb = true → sorted.length < g.graph.length := by
    intro hbt
    subst hbt
    have hcyc := detectCycleFrom_sound g (keysOf g) [] hb
    have hnall : ¬ ∀ k ∈ keysOf g, k ∈ sorted := by
      intro hall
      have hac := kahnInv_sound g hWF.2.2 hord hall
      obtain ⟨c, hc⟩ := hcyc
      exact hac c hc
    push_neg at hnall
    obtain ⟨k, hkK, hkn⟩ := hnall
    have hnodup2 : (sorted ++ [k]).Nodup := by
      refine List.Nodup.append hsn (by simp) ?_
      intro x hx1 hx2
      simp at hx2
      subst hx2
      exact hkn hx1
    have hsub2 : (sorted ++ [k]) ⊆ keysOf g := by
      intro x hx
      rcases List.mem_append.mp hx with h2 | h2
      · exact hsub h2
      · simp at h2
        subst h2
        exact hkK
    have h3 := (List.subperm_of_subset hnodup2 hsub2).length_le
    simp at h3
    omega
  have hfeq : bb = false → sorted.length = g.graph.length := by
    intro hbf
    subst hbf
    have hnc : Acyclic g := detectCycleFrom_false_acyclic g hb
    have hall := kahnInv_complete g hWF.1
      ⟨hn, hmem, hstored, hiff, hord⟩ hnc
    have hge : (keysOf g).length ≤ sorted.length :=
      (List.subperm_of_subset hWF.1 (fun x hx => hall x hx)).length_le
    omega
  refine ⟨sorted, indeg2, bb, hrun, hb, ⟨hfeq, ?_⟩, hstrict⟩
  intro hlen
  cases bb with
  | false => rfl
  | true =>
    have := hstrict rfl
    omega

theorem c3_cycle_signals_agree_witness :
    ∃ sorted indeg2 b, topologicalSort gChain = .ok (sorted, indeg2) ∧
      detectCycle gChain = .ok b ∧
      (b = false ↔ sorted.length = gChain.graph.length) ∧
      (b = true → sorted.length < gChain.graph.length) :=
  c3_cycle_signals_agree gChain
    (by unfold WFGraph NodupKeys NodupDeps Registered; decide)
    (by unfold FreshDeg; decide)

theorem topoLoop_nopush (g : DependencyGraph) (hReg : Registered g)
    (hND : NodupDeps g) :
    ∀ (fuel : Nat) (queue acc : List Package) (i : List (Package × Int)),
      (∀ d ∈ keysOf g, ∃ k, alistFind i d = some k ∧ k ≤ 0) →
      (∀ x ∈ queue, x ∈ keysOf g) →
      queue.length < fuel →
      ∃ i2, topoLoop g fuel queue acc i = .ok (acc ++ queue, i2) := by
  intro fuel
  induction fuel with
  | zero =>
    intro queue acc i _ _ hlen
    exact absurd hlen (Nat.not_lt_zero _)
  | succ n ih =>
    intro queue acc i hzero hq hlen
    cases queue with
    | nil =>
      refine ⟨i, ?_⟩
      rw [List.append_nil]
      rfl
    | cons pkg rest =>
      have hpkgK := hq pkg (by simp)
      obtain ⟨deps, hfind⟩ := Option.isSome_iff_exists.mp
        (alistFind_isSome_iff.mpr hpkgK)
      have hentry := alistFind_eq_some_mem hfind
      have hdepsK : ∀ x ∈ deps, x ∈ keysOf g := fun x hx =>
        hReg _ hentry x hx
      have hsome : ∀ x ∈ deps, (alistFind i x).isSome := by
        intro x hx
        obtain ⟨k, hk, -⟩ := hzero x (hdepsK x hx)
        rw [hk]
        rfl
      obtain ⟨q2, i2, hpd⟩ := processDeps_total deps rest i hsome
      have hval := processDeps_find deps rest i q2 i2 hpd
      have hdepsN := hND _ hentry
      have hq2 := processDeps_queue deps rest i q2 i2 hdepsN hpd
      have hfilt : deps.filter
          (fun x => decide (alistFind i x = some 1)) = [] := by
        rw [List.filter_eq_nil]
        intro x hx
        obtain ⟨k, hk, hk0⟩ := hzero x (hdepsK x hx)
        simp [hk]
        omega
      rw [hfilt, List.append_nil] at hq2
      rw [hq2] at hpd
      have hzero2 : ∀ d ∈ keysOf g, ∃ k,
          alistFind i2 d = some k ∧ k ≤ 0 := by
        intro d hd
        obtain ⟨k, hk, hk0⟩ := hzero d hd
        refine ⟨k - (occ d deps : Int), ?_, by omega⟩
        rw [hval d, hk]
        rfl
      obtain ⟨i3, hrec⟩ := ih rest (acc ++ [pkg]) i2 hzero2
        (fun x hx => hq x (List.mem_cons_of_mem _ hx))
        (by simp at hlen ⊢; omega)
      refine ⟨i3, ?_⟩
      rw [topoLoop_cons_eq g n pkg rest acc i deps rest i2 hfind hpd, hrec]
      simp

/-- Claim C5 (amended): after a completed run of topologicalSort on an
acyclic well-formed graph with fresh in-degrees, every counter is left at
0 (mutated and zeroed along the discovered order), and a second call on
the resulting graph returns the full package list in graph iteration
order --- not an empty sequence. -/
theorem c5_second_sort_degenerate (g : DependencyGraph) (hWF : WFGraph g)
    (hfresh : FreshDeg g) (hac : Acyclic g) :
    ∃ sorted indeg2 indeg3,
      topologicalSort g = .ok (sorted, indeg2) ∧
      (∀ d ∈ keysOf g, alistFind indeg2 d = some 0) ∧
      topologicalSort ⟨g.graph, indeg2⟩ = .ok (keysOf g, indeg3) := by
  obtain ⟨sorted, indeg2, hrun, hinv⟩ := topologicalSort_run g hWF hfresh
  have hall := kahnInv_complete g hWF.1 hinv hac
  obtain ⟨hn, hmem, hstored, hiff, hord⟩ := hinv
  have hzero : ∀ d ∈ keysOf g, alistFind indeg2 d = some 0 := by
    intro d hd
    have hSC : sortedCnt g sorted d = cnt g d :=
      sortedCntEdges_all_in
        (fun e he => hall e.1 (List.mem_map.mpr ⟨e, he, rfl⟩))
    rw [hstored d hd]
    congr 1
    omega
  have hseed2 : seedQueue g.graph indeg2 = .ok (keysOf g) := by
    have h1 := seedQueue_eq g.graph indeg2
      (fun e he => by rw [hzero e.1 (List.mem_map.mpr ⟨e, he, rfl⟩)]; rfl)
    rw [h1]
    congr 1
    apply List.filter_eq_self.mpr
    intro p hp
    rw [hzero p hp]
    simp
  have hz2 : ∀ d ∈ keysOf g, ∃ k, alistFind indeg2 d = some k ∧ k ≤ 0 :=
    fun d hd => ⟨0, hzero d hd, le_refl 0⟩
  obtain ⟨i3, hloop⟩ := topoLoop_nopush ⟨g.graph, indeg2⟩ hWF.2.2 hWF.2.1
    (g.graph.length + 1) (keysOf g) [] indeg2 hz2 (fun x hx => hx)
    (by
      have h2 : (keysOf g).length = g.graph.length := List.length_map _ _
      omega)
  rw [List.nil_append] at hloop
  refine ⟨sorted, indeg2, i3, hrun, hzero, ?_⟩
  rw [topologicalSort_eq ⟨g.graph, indeg2⟩ (keysOf g) hseed2]
  exact hloop

theorem c5_second_sort_degenerate_witness :
    ∃ sorted indeg2 indeg3,
      topologicalSort gChain = .ok (sorted, indeg2) ∧
      (∀ d ∈ keysOf gChain, alistFind indeg2 d = some 0) ∧
      topologicalSort ⟨gChain.graph, indeg2⟩ =
        .ok (keysOf gChain, indeg3) :=
  c5_second_sort_degenerate gChain
    (by unfold WFGraph NodupKeys NodupDeps Registered; decide)
    (by unfold FreshDeg; decide) gChain_acyclic
